import Mathlib

/-!
Verification of the Tachylite vault server (src/server.py) and its static
exporter (src/build_static.py) against the repository specification.

The filesystem is modelled shallowly: a file is a segment list (its path),
a modification-time token and a string content.  POSIX paths are segment
lists; `pyResolveSegs` mirrors `pathlib.Path.resolve()` on a symlink-free
tree (the model contains no symbolic links; `resolve()` is then the
lexical normalisation implemented here).  Machine specifics that the
claims do not touch (real time, permissions, glob wildcard characters in
`rglob` patterns, non-ASCII case folding) are fixed in the natural way
and noted at the definition concerned.  String manipulation is done on
the underlying character lists by structural recursion so that every
definition evaluates inside the kernel.
-/

namespace Tachylite

/-- Configuration surface of the server (`_DEFAULTS` / `_load_config` in
src/server.py), restricted to the fields the verified components read. -/
structure Config where
  allow_edit_all : Bool
  allow_file_creation : Bool
  excluded_dirs : List String
  excluded_files : List String
  allowed_upload_extensions : List String
deriving Repr, DecidableEq

/-- The `_DEFAULTS` dictionary of src/server.py. -/
def defaultConfig : Config :=
  { allow_edit_all := false
    allow_file_creation := true
    excluded_dirs := [".obsidian", "Templates", ".git", ".claude", ".trash",
                      "__pycache__", "_site", ".github"]
    excluded_files := ["server.py", "build_static.py", "deploy.sh",
                       "deploy-tachylite.sh", "setup-autostart.sh",
                       "tachylite.config.json"]
    allowed_upload_extensions := [".md", ".txt", ".pdf", ".png", ".jpg",
                                  ".jpeg", ".gif", ".webp", ".svg"] }

/-! ### Character-list string helpers -/

/-- Split a character list at a separator character (the behaviour of
Python's `str.split` with a one-character separator: `""` yields `[""]`,
separators at the ends yield empty segments). -/
def splitOnChar (c : Char) : List Char → List String
  | [] => [""]
  | ch :: rest =>
      match splitOnChar c rest, decide (ch = c) with
      | r, true => "" :: r
      | [], false => [String.mk [ch]]
      | s :: tl, false => String.mk (ch :: s.data) :: tl

/-- The `/`-separated raw segments of a path string. -/
def pathSegs (s : String) : List String := splitOnChar '/' s.data

/-- Whether a path string is absolute. -/
def isAbsPath (s : String) : Bool := s.data.head? = some '/'

/-- ASCII lower-casing of a character (Python's `str.lower` restricted to
ASCII; the vault names in the claims are ASCII). -/
def charLower (c : Char) : Char :=
  if 65 ≤ c.toNat ∧ c.toNat ≤ 90 then Char.ofNat (c.toNat + 32) else c

/-- ASCII lower-casing of a string. -/
def strLower (s : String) : String := String.mk (s.data.map charLower)

/-- Decimal digit character. -/
def digitChar (d : Nat) : Char := Char.ofNat (48 + d)

/-- Decimal rendering of a natural number, by fuelled structural
recursion (the fuel `n + 1` always suffices). -/
def natReprAux : Nat → Nat → List Char
  | 0, _ => []
  | fuel + 1, n =>
      if n < 10 then [digitChar n]
      else natReprAux fuel (n / 10) ++ [digitChar (n % 10)]

/-- Decimal rendering of a natural number. -/
def natRepr (n : Nat) : String := String.mk (natReprAux (n + 1) n)

/-- Whether `pat` occurs as a contiguous subsequence of `l`. -/
def containsSeq (pat : List Char) : List Char → Bool
  | [] => pat.isEmpty
  | c :: rest => pat.isPrefixOf (c :: rest) || containsSeq pat rest

/-- Substring test (used only to state claims that quantify over path
strings containing `../`). -/
def strContains (s pat : String) : Bool := containsSeq pat.data s.data

/-! ### Path strings and lexical resolution -/

/-- One resolution step of `Path.resolve()` on a symlink-free tree: empty
and `.` segments vanish, `..` removes the last segment (staying put at the
filesystem root, as `resolve()` does), anything else is appended. -/
def resolveStep (acc : List String) (s : String) : List String :=
  if s = "" ∨ s = "." then acc
  else if s = ".." then acc.dropLast
  else acc ++ [s]

/-- Lexical resolution of a list of raw path segments against a base. -/
def pyResolveSegs (base : List String) (parts : List String) : List String :=
  parts.foldl resolveStep base

/-- `(VAULT / raw).resolve()` for a vault whose absolute path has segments
`va`: joining with an absolute path replaces the base (pathlib semantics),
otherwise the raw segments are resolved against the vault. -/
def parseAbs (va : List String) (raw : String) : List String :=
  if isAbsPath raw then pyResolveSegs [] (pathSegs raw)
  else pyResolveSegs va (pathSegs raw)

/-- `str()` of a relative `pathlib` path given as segments (`"."` for the
empty path, segments joined by `/` otherwise). -/
def relStr : List String → String
  | [] => "."
  | [s] => s
  | s :: rest => s ++ "/" ++ relStr rest

/-- Last segment of a path, `""` for the root — `pathlib`'s `.name` for a
resolved path. -/
def lastSegD (p : List String) : String := p.getLastD ""

/-- `PurePath(s).name`: the last non-empty, non-`.` component of the raw
string. -/
def pyName (s : String) : String :=
  ((pathSegs s).filter (fun t => t ≠ "" && t ≠ ".")).getLastD ""

/-- `PurePath(n).suffix` for a single name `n`: the part from the last dot
on, provided that dot is neither the first nor the last character. -/
def pySfx (n : String) : String :=
  match n.data.reverse.findIdx? (· = '.') with
  | none => ""
  | some k =>
      if 0 < k ∧ k + 1 < n.data.length then
        String.mk (n.data.drop (n.data.length - 1 - k))
      else ""

/-- `PurePath(n).stem` for a single name `n`: the name with `pySfx n`
removed from the end. -/
def pyStem (n : String) : String :=
  match n.data.reverse.findIdx? (· = '.') with
  | none => n
  | some k =>
      if 0 < k ∧ k + 1 < n.data.length then
        String.mk (n.data.take (n.data.length - 1 - k))
      else n

/-- `Path(s).suffix` for a full path string: the suffix of its name. -/
def pySuffixOf (s : String) : String := pySfx (pyName s)

/-! ### The Path Sandbox (`_safe_vault_path`, src/server.py lines 120-134) -/

/-- Translation of `_safe_vault_path`.  `va` is the resolved absolute
vault root.  The `try` around `resolve`/`relative_to` becomes the prefix
test (a `ValueError` from `relative_to` is exactly the non-descendant
case; `OSError` from `resolve` cannot arise on a symlink-free tree). -/
def safe_vault_path (cfg : Config) (va : List String) (raw : String) :
    Option (List String) :=
  if raw = "" then none
  else if va.isPrefixOf (parseAbs va raw) then
    if ∃ s ∈ (parseAbs va raw).drop va.length, s ∈ cfg.excluded_dirs then none
    else if lastSegD (parseAbs va raw) ∈ cfg.excluded_files then none
    else some (parseAbs va raw)
  else none

/-- A resolved absolute path the sandbox is specified to accept: inside
the vault, no excluded directory segment below the root, final name not an
excluded file name. -/
def PathOkay (cfg : Config) (va c : List String) : Prop :=
  va <+: c ∧ (∀ s ∈ c.drop va.length, s ∉ cfg.excluded_dirs) ∧
    lastSegD c ∉ cfg.excluded_files

theorem safe_vault_path_sound {cfg : Config} {va : List String}
    {raw : String} {c : List String}
    (h : safe_vault_path cfg va raw = some c) :
    c = parseAbs va raw ∧ PathOkay cfg va c := by
  unfold safe_vault_path at h
  split at h
  · exact absurd h (by simp)
  · split at h
    · split at h
      · exact absurd h (by simp)
      · split at h
        · exact absurd h (by simp)
        · next hpre hdir hfile =>
          obtain rfl : parseAbs va raw = c := by simpa using h
          refine ⟨rfl, List.isPrefixOf_iff_prefix.mp hpre, ?_, hfile⟩
          intro s hs
          exact fun hmem => hdir ⟨s, hs, hmem⟩
    · exact absurd h (by simp)

theorem safe_vault_path_accepts {cfg : Config} {va : List String}
    {raw : String} (h0 : raw ≠ "") (h1 : PathOkay cfg va (parseAbs va raw)) :
    safe_vault_path cfg va raw = some (parseAbs va raw) := by
  obtain ⟨hpre, hdir, hfile⟩ := h1
  unfold safe_vault_path
  rw [if_neg h0, if_pos (List.isPrefixOf_iff_prefix.mpr hpre),
    if_neg (by rintro ⟨s, hs, hmem⟩; exact hdir s hs hmem), if_neg hfile]

/-- C1 (amended): the sandbox accepts exactly the non-empty raw paths
whose lexical resolution against the vault root stays inside the vault and
avoids excluded directory segments and excluded file names; an accepted
path is always returned as that resolution (hence deterministically for a
fixed filesystem state).  The original claim — that every string
containing `../` or an absolute prefix is rejected — fails, see
`C1_counterexample`. -/
theorem C1_safe_vault_path_characterisation (cfg : Config)
    (va : List String) (raw : String) :
    (∀ c, safe_vault_path cfg va raw = some c →
        c = parseAbs va raw ∧ PathOkay cfg va c) ∧
    (raw ≠ "" → PathOkay cfg va (parseAbs va raw) →
        safe_vault_path cfg va raw = some (parseAbs va raw)) :=
  ⟨fun _ h => safe_vault_path_sound h,
   fun h0 h1 => safe_vault_path_accepts h0 h1⟩

theorem C1_witness :
    safe_vault_path defaultConfig ["home", "vault"] "notes/b.md" =
      some ["home", "vault", "notes", "b.md"] := by
  have h := (C1_safe_vault_path_characterisation defaultConfig
      ["home", "vault"] "notes/b.md").2 (by decide)
      ⟨by decide, by decide, by decide⟩
  simpa using h

/-- C1 (counterexample to the claim as stated): `"a/../b.md"` contains a
`../` sequence yet is accepted (it resolves inside the vault), and the
absolute path `"/home/vault/b.md"` has an absolute-path prefix yet is also
accepted, because `_safe_vault_path` only rejects paths whose resolution
leaves the vault root. -/
theorem C1_counterexample :
    strContains "a/../b.md" "../" = true ∧
    safe_vault_path defaultConfig ["home", "vault"] "a/../b.md" =
      some ["home", "vault", "b.md"] ∧
    isAbsPath "/home/vault/b.md" = true ∧
    safe_vault_path defaultConfig ["home", "vault"] "/home/vault/b.md" =
      some ["home", "vault", "b.md"] := by
  refine ⟨by decide, by decide, by decide, by decide⟩

/-! ### Filesystem model

A filesystem is a list of files with absolute segment paths.  Directories
exist implicitly as proper prefixes of file paths (the model cannot
represent an empty directory; no claim depends on one).  The
modification time is kept as the token Python would interpolate into
`f"{rel}:{mtime}"` — distinct times render distinctly. -/

structure VFile where
  path : List String
  mtime : String
  content : String
deriving Repr, DecidableEq

structure FS where
  files : List VFile
deriving Repr, DecidableEq

/-- Whether a regular file exists at `p`. -/
def fsIsFile (fs : FS) (p : List String) : Bool :=
  fs.files.any (fun f => decide (f.path = p))

/-- Whether a directory exists at `p` (the root, or a proper prefix of
some file). -/
def fsIsDir (fs : FS) (p : List String) : Bool :=
  decide (p = []) ||
    fs.files.any (fun f => p.isPrefixOf f.path && decide (p ≠ f.path))

/-- `Path.exists()` for a resolved path. -/
def fsExists (fs : FS) (p : List String) : Bool :=
  fsIsFile fs p || fsIsDir fs p

/-- Proper non-empty prefixes of a path: the directories above it. -/
def ancestorsOf (p : List String) : List (List String) :=
  ((List.range p.length).drop 1).map (fun i => p.take i)

/-- All directory paths implied by the filesystem. -/
def dirsOf (fs : FS) : List (List String) :=
  (fs.files.flatMap (fun f => ancestorsOf f.path)).dedup

/-- Candidate paths `VAULT.rglob(pattern)` can yield: every file and
directory strictly below the vault root.  The traversal order of `rglob`
is filesystem-dependent in Python; the model fixes files before
directories, each in list order (no claim depends on the order). -/
def vaultCands (va : List String) (fs : FS) : List (List String) :=
  (fs.files.map (·.path) ++ dirsOf fs).filter
    (fun p => va.isPrefixOf p && decide (p ≠ va))

/-! ### Fuzzy note resolution (`resolve_vault_path`, src/server.py
lines 166-176) -/

/-- Translation of `resolve_vault_path`: return `VAULT / note_path` if it
exists (no sandbox check at all on this branch), else search the whole
vault for the first same-named entry outside excluded directories.
`rglob` patterns are matched literally (glob wildcards in note names are
not modelled). -/
def resolve_vault_path (cfg : Config) (va : List String) (fs : FS)
    (note_path : String) : Option (List String) :=
  if fsExists fs (parseAbs va note_path) then some (parseAbs va note_path)
  else
    (vaultCands va fs).find? (fun p =>
      decide (lastSegD p = pyName note_path) &&
        !((p.drop va.length).any (fun s => decide (s ∈ cfg.excluded_dirs))))

/-- Outcome of a read-only endpoint; `okRead` records the path whose
content is read from disk (the rendered response body is not modelled —
the claims about these routes concern which path is touched). -/
inductive ReadOutcome where
  | notFound
  | forbidden
  | okRead (p : List String)
deriving Repr, DecidableEq

/-- Translation of the GET branch of `api_note` (src/server.py lines
283-295): resolve, 404 unless a file, 403 unless the resolved path is
under the vault root, then read. -/
def api_note_get (cfg : Config) (va : List String) (fs : FS)
    (note_path : String) : ReadOutcome :=
  match resolve_vault_path cfg va fs note_path with
  | none => .notFound
  | some c =>
      if fsIsFile fs c then
        if va.isPrefixOf c then .okRead c else .forbidden
      else .notFound

/-- Translation of `raw_file` (src/server.py lines 444-454); its
validation logic is identical to the note GET. -/
def raw_file (cfg : Config) (va : List String) (fs : FS)
    (file_path : String) : ReadOutcome :=
  match resolve_vault_path cfg va fs file_path with
  | none => .notFound
  | some c =>
      if fsIsFile fs c then
        if va.isPrefixOf c then .okRead c else .forbidden
      else .notFound

/-- Session-ownership test `_sid_owns` (src/server.py lines 112-117).
Sessions are an association list from session id to owned relative
paths. -/
def sid_owns (cfg : Config) (sessions : List (String × List String))
    (sid rel : String) : Bool :=
  cfg.allow_edit_all ||
    sessions.any (fun e => decide (e.1 = sid) && e.2.any (fun r => decide (r = rel)))

/-- Translation of `api_note_raw` (src/server.py lines 329-341): like the
GET but the read additionally requires ownership (both the out-of-vault
403 and the not-editable 403 are `forbidden` here). -/
def api_note_raw (cfg : Config) (va : List String)
    (sessions : List (String × List String)) (sid : String) (fs : FS)
    (note_path : String) : ReadOutcome :=
  match resolve_vault_path cfg va fs note_path with
  | none => .notFound
  | some c =>
      if fsIsFile fs c then
        if va.isPrefixOf c then
          if sid_owns cfg sessions sid (relStr (c.drop va.length)) then
            .okRead c
          else .forbidden
        else .forbidden
      else .notFound

/-- Outcome of a mutating endpoint; `okWrite` records the validated
absolute path written or deleted.  `permissionDenied` is the ownership
403 JSON error, a constructor distinct from `notFound` (404). -/
inductive EditOutcome where
  | notFound
  | permissionDenied
  | okWrite (p : List String)
deriving Repr, DecidableEq

/-- Translation of `_api_note_put` (src/server.py lines 298-311).  The
request body is modelled as the already-extracted string `content` (the
non-string 400 branch concerns request plumbing the spec scopes out).
Writing updates content and stamps `mtimeNow`. -/
def api_note_put (cfg : Config) (va : List String)
    (sessions : List (String × List String)) (sid : String) (fs : FS)
    (note_path content mtimeNow : String) : EditOutcome × FS :=
  match safe_vault_path cfg va note_path with
  | none => (.notFound, fs)
  | some c =>
      if fsIsFile fs c then
        if sid_owns cfg sessions sid (relStr (c.drop va.length)) then
          (.okWrite c,
           ⟨fs.files.map (fun f =>
              if f.path = c then { f with content := content, mtime := mtimeNow }
              else f)⟩)
        else (.permissionDenied, fs)
      else (.notFound, fs)

/-- Update after a delete: the session's ownership entry discards the
deleted relative path. -/
def sessionsDiscard (sessions : List (String × List String))
    (sid rel : String) : List (String × List String) :=
  sessions.map (fun e =>
    if e.1 = sid then (e.1, e.2.filter (fun r => decide (r ≠ rel))) else e)

/-- Translation of `_api_note_delete` (src/server.py lines 314-326). -/
def api_note_delete (cfg : Config) (va : List String)
    (sessions : List (String × List String)) (sid : String) (fs : FS)
    (note_path : String) :
    EditOutcome × FS × List (String × List String) :=
  match safe_vault_path cfg va note_path with
  | none => (.notFound, fs, sessions)
  | some c =>
      if fsIsFile fs c then
        if sid_owns cfg sessions sid (relStr (c.drop va.length)) then
          (.okWrite c,
           ⟨fs.files.filter (fun f => decide (f.path ≠ c))⟩,
           sessionsDiscard sessions sid (relStr (c.drop va.length)))
        else (.permissionDenied, fs, sessions)
      else (.notFound, fs, sessions)

/-! ### Upload (`api_files_upload`, src/server.py lines 376-421) -/

/-- Outcome of the upload endpoint (403 disabled, 400 validation, 409
conflict, or success with the path written). -/
inductive UploadOutcome where
  | disabled
  | badRequest
  | conflict
  | okUpload (p : List String)
deriving Repr, DecidableEq

/-- Fuel that strictly exceeds the number of existing paths (files plus
implied directories) in the filesystem, so the fresh-name search below
never exhausts it. -/
def fsSize (fs : FS) : Nat :=
  (fs.files.map (fun f => f.path.length)).sum + fs.files.length + 2

/-- The `while fpath.exists()` fresh-name loop of `api_files_upload`:
try `stem_1`, `stem_2`, … until an unused path is found.  Fuel-bounded;
`none` covers both the 409 branch (sandbox rejects a candidate) and fuel
exhaustion, which adequate fuel makes unreachable. -/
def uploadLoop (cfg : Config) (va : List String) (fs : FS)
    (stem ext : String) (useFolder : Bool) :
    Nat → Nat → List String → Option (List String)
  | 0, _, _ => none
  | fuel + 1, counter, fpath =>
      if fsExists fs fpath then
        match safe_vault_path cfg va
            (if useFolder then
              relStr ((fpath.dropLast.drop va.length) ++
                [stem ++ "_" ++ natRepr counter ++ ext])
            else stem ++ "_" ++ natRepr counter ++ ext) with
        | none => none
        | some fp2 =>
            uploadLoop cfg va fs stem ext useFolder fuel (counter + 1) fp2
      else some fpath

/-- Translation of `api_files_upload`.  `filename` and `folderParts` are
the values after `secure_filename` (sanitisation is an external
collaborator per the spec §1); session bookkeeping does not touch the
filesystem and is omitted.  Saving appends a fresh file stamped
`mtimeNow`. -/
def api_files_upload (cfg : Config) (va : List String) (fs : FS)
    (filename : String) (folderParts : List String)
    (content mtimeNow : String) : UploadOutcome × FS :=
  if cfg.allow_file_creation = false then (.disabled, fs)
  else if filename = "" then (.badRequest, fs)
  else if strLower (pySuffixOf filename) ∉ cfg.allowed_upload_extensions then
    (.badRequest, fs)
  else if ∃ p ∈ folderParts, p = "" then (.badRequest, fs)
  else
    match safe_vault_path cfg va (relStr (folderParts ++ [filename])) with
    | none => (.badRequest, fs)
    | some fp0 =>
        match uploadLoop cfg va fs (pyStem filename)
            (strLower (pySuffixOf filename)) (folderParts ≠ []) (fsSize fs) 1
            fp0 with
        | none => (.conflict, fs)
        | some fp =>
            (.okUpload fp, ⟨fs.files ++ [⟨fp, mtimeNow, content⟩]⟩)

/-! ### C2: path validation at the public interface -/

theorem api_note_get_inside {cfg : Config} {va : List String} {fs : FS}
    {p : String} {c : List String}
    (h : api_note_get cfg va fs p = .okRead c) : va <+: c := by
  unfold api_note_get at h
  split at h
  · exact absurd h (by simp)
  · split at h
    · split at h
      · next hpre => cases h; exact List.isPrefixOf_iff_prefix.mp hpre
      · exact absurd h (by simp)
    · exact absurd h (by simp)

theorem raw_file_inside {cfg : Config} {va : List String} {fs : FS}
    {p : String} {c : List String}
    (h : raw_file cfg va fs p = .okRead c) : va <+: c := by
  unfold raw_file at h
  split at h
  · exact absurd h (by simp)
  · split at h
    · split at h
      · next hpre => cases h; exact List.isPrefixOf_iff_prefix.mp hpre
      · exact absurd h (by simp)
    · exact absurd h (by simp)

theorem api_note_raw_inside {cfg : Config} {va : List String}
    {sessions : List (String × List String)} {sid : String} {fs : FS}
    {p : String} {c : List String}
    (h : api_note_raw cfg va sessions sid fs p = .okRead c) : va <+: c := by
  unfold api_note_raw at h
  split at h
  · exact absurd h (by simp)
  · split at h
    · split at h
      · split at h
        · next hpre _ => cases h; exact List.isPrefixOf_iff_prefix.mp hpre
        · exact absurd h (by simp)
      · exact absurd h (by simp)
    · exact absurd h (by simp)

theorem api_note_put_validated {cfg : Config} {va : List String}
    {sessions : List (String × List String)} {sid : String} {fs : FS}
    {p content now : String} {c : List String} {fs' : FS}
    (h : api_note_put cfg va sessions sid fs p content now = (.okWrite c, fs')) :
    PathOkay cfg va c := by
  unfold api_note_put at h
  split at h
  · exact absurd h (by simp)
  · next c0 hres =>
    split at h
    · split at h
      · obtain ⟨h1, -⟩ := Prod.mk.injEq .. ▸ h
        cases h1
        exact (safe_vault_path_sound hres).2
      · exact absurd h (by simp)
    · exact absurd h (by simp)

theorem api_note_delete_validated {cfg : Config} {va : List String}
    {sessions : List (String × List String)} {sid : String} {fs : FS}
    {p : String} {c : List String}
    {out : FS × List (String × List String)}
    (h : api_note_delete cfg va sessions sid fs p = (.okWrite c, out)) :
    PathOkay cfg va c := by
  unfold api_note_delete at h
  split at h
  · exact absurd h (by simp)
  · next c0 hres =>
    split at h
    · split at h
      · obtain ⟨h1, -⟩ := Prod.mk.injEq .. ▸ h
        cases h1
        exact (safe_vault_path_sound hres).2
      · exact absurd h (by simp)
    · exact absurd h (by simp)

/-- C2 (amended): the write endpoints (PUT, DELETE) validate the full
sandbox contract — anything they touch is inside the vault, free of
excluded directory segments and not an excluded file name — while the
read endpoints (note GET, note-raw GET, raw GET) only guarantee that the
path read is inside the vault root; `C2_counterexample` shows a read of
an excluded file and of a file inside an excluded directory. -/
theorem C2_endpoint_path_validation (cfg : Config) (va : List String)
    (fs : FS) (sessions : List (String × List String))
    (sid p content now : String) :
    (∀ c, api_note_get cfg va fs p = .okRead c → va <+: c) ∧
    (∀ c, raw_file cfg va fs p = .okRead c → va <+: c) ∧
    (∀ c, api_note_raw cfg va sessions sid fs p = .okRead c → va <+: c) ∧
    (∀ c fs', api_note_put cfg va sessions sid fs p content now =
        (.okWrite c, fs') → PathOkay cfg va c) ∧
    (∀ c out, api_note_delete cfg va sessions sid fs p =
        (.okWrite c, out) → PathOkay cfg va c) :=
  ⟨fun _ h => api_note_get_inside h,
   fun _ h => raw_file_inside h,
   fun _ h => api_note_raw_inside h,
   fun _ _ h => api_note_put_validated h,
   fun _ _ h => api_note_delete_validated h⟩

/-- Filesystem for the C2 counterexample: the vault contains the server's
own source file and a `.git` directory. -/
def fsC2 : FS :=
  ⟨[⟨["v", "server.py"], "1", "print(1)"⟩,
    ⟨["v", ".git", "config"], "1", "cfg"⟩]⟩

/-- C2 (counterexample to the claim as stated): a GET of `server.py`
reads a path whose final segment is an excluded file name, and a GET of
`.git/config` reads a path containing an excluded directory segment —
`resolve_vault_path` performs no exclusion check on a direct hit, so the
read endpoints do not validate exclusions before touching the
filesystem. -/
theorem C2_counterexample :
    api_note_get defaultConfig ["v"] fsC2 "server.py" =
      .okRead ["v", "server.py"] ∧
    lastSegD ["v", "server.py"] ∈ defaultConfig.excluded_files ∧
    api_note_get defaultConfig ["v"] fsC2 ".git/config" =
      .okRead ["v", ".git", "config"] ∧
    ".git" ∈ defaultConfig.excluded_dirs := by
  refine ⟨by decide, by decide, by decide, by decide⟩

/-- Filesystem for the C2 witness. -/
def fsC2w : FS := ⟨[⟨["v", "a.md"], "1", "hello"⟩]⟩

theorem C2_witness :
    (["v"] <+: ["v", "a.md"]) ∧ PathOkay defaultConfig ["v"] ["v", "a.md"] := by
  refine ⟨?_, ?_⟩
  · exact (C2_endpoint_path_validation defaultConfig ["v"] fsC2w
      [("s", ["a.md"])] "s" "a.md" "x" "2").1 ["v", "a.md"] (by decide)
  · exact (C2_endpoint_path_validation defaultConfig ["v"] fsC2w
      [("s", ["a.md"])] "s" "a.md" "x" "2").2.2.2.1 ["v", "a.md"]
      ⟨[⟨["v", "a.md"], "2", "x"⟩]⟩ (by decide)

/-! ### C7: ownership gating of PUT and DELETE -/

theorem sid_owns_of_edit_all {cfg : Config}
    (h : cfg.allow_edit_all = true) (sessions : List (String × List String))
    (sid rel : String) : sid_owns cfg sessions sid rel = true := by
  unfold sid_owns
  rw [h]
  simp

/-- C7: with edit-all disabled, a PUT or DELETE on an existing vault file
whose relative path the caller's session does not own answers with the
permission error — a constructor distinct from not-found — and leaves the
filesystem (and the session map) untouched; with edit-all enabled, any
session's PUT rewrites the file and any session's DELETE removes it. -/
theorem C7_ownership_gating (cfg : Config) (va : List String)
    (sessions : List (String × List String)) (sid : String) (fs : FS)
    (p content now : String) (c : List String)
    (hres : safe_vault_path cfg va p = some c)
    (hfile : fsIsFile fs c = true) :
    (sid_owns cfg sessions sid (relStr (c.drop va.length)) = false →
      api_note_put cfg va sessions sid fs p content now =
        (.permissionDenied, fs) ∧
      api_note_delete cfg va sessions sid fs p =
        (.permissionDenied, fs, sessions)) ∧
    (cfg.allow_edit_all = true →
      api_note_put cfg va sessions sid fs p content now =
        (.okWrite c,
         ⟨fs.files.map (fun f =>
            if f.path = c then { f with content := content, mtime := now }
            else f)⟩) ∧
      api_note_delete cfg va sessions sid fs p =
        (.okWrite c, ⟨fs.files.filter (fun f => decide (f.path ≠ c))⟩,
         sessionsDiscard sessions sid (relStr (c.drop va.length)))) ∧
    (EditOutcome.permissionDenied ≠ EditOutcome.notFound) := by
  refine ⟨fun hown => ?_, fun hall => ?_, by simp⟩
  · unfold api_note_put api_note_delete
    rw [hres]
    simp only [hfile, hown]
    simp
  · unfold api_note_put api_note_delete
    rw [hres]
    simp only [hfile, sid_owns_of_edit_all hall]
    simp

/-- Configuration with the global edit-all switch enabled. -/
def editAllConfig : Config := { defaultConfig with allow_edit_all := true }

theorem C7_witness :
    (api_note_put defaultConfig ["v"] [("s", ["x.md"])] "s"
        ⟨[⟨["v", "y.md"], "1", "old"⟩]⟩ "y.md" "new" "2" =
      (.permissionDenied, ⟨[⟨["v", "y.md"], "1", "old"⟩]⟩)) ∧
    (api_note_put editAllConfig ["v"] [] "anon"
        ⟨[⟨["v", "y.md"], "1", "old"⟩]⟩ "y.md" "new" "2" =
      (.okWrite ["v", "y.md"], ⟨[⟨["v", "y.md"], "2", "new"⟩]⟩)) := by
  constructor
  · exact ((C7_ownership_gating defaultConfig ["v"] [("s", ["x.md"])] "s"
      ⟨[⟨["v", "y.md"], "1", "old"⟩]⟩ "y.md" "new" "2" ["v", "y.md"]
      (by decide) (by decide)).1 (by decide)).1
  · have h := ((C7_ownership_gating editAllConfig ["v"] [] "anon"
      ⟨[⟨["v", "y.md"], "1", "old"⟩]⟩ "y.md" "new" "2" ["v", "y.md"]
      (by decide) (by decide)).2.1 (by decide)).1
    simpa using h

/-! ### C10: upload never overwrites -/

theorem uploadLoop_fresh {cfg : Config} {va : List String} {fs : FS}
    {stem ext : String} {uf : Bool} :
    ∀ {fuel counter : Nat} {fpath fp : List String},
      uploadLoop cfg va fs stem ext uf fuel counter fpath = some fp →
      fsExists fs fp = false := by
  intro fuel
  induction fuel with
  | zero => intro counter fpath fp h; exact absurd h (by simp [uploadLoop])
  | succ fuel ih =>
      intro counter fpath fp h
      unfold uploadLoop at h
      split at h
      · split at h
        · exact absurd h (by simp)
        · exact ih h
      · next hex =>
        cases h
        exact Bool.not_eq_true _ ▸ hex

/-- C10: whenever the upload endpoint succeeds, the path it writes did
not exist beforehand (neither as a file nor as a directory) and the
resulting filesystem is the old one with exactly one fresh file appended,
so the content of every pre-existing file is unchanged.  The fresh path
is found by the underscore-counter loop; `C10_witness` shows the suffix
scheme on a concrete collision. -/
theorem C10_upload_no_overwrite (cfg : Config) (va : List String) (fs : FS)
    (filename : String) (folderParts : List String) (content now : String)
    (fp : List String) (fs' : FS)
    (h : api_files_upload cfg va fs filename folderParts content now =
      (.okUpload fp, fs')) :
    fsExists fs fp = false ∧
    fs'.files = fs.files ++ [⟨fp, now, content⟩] ∧
    ∀ f ∈ fs.files, f ∈ fs'.files := by
  unfold api_files_upload at h
  split at h
  · exact absurd h (by simp)
  · split at h
    · exact absurd h (by simp)
    · split at h
      · exact absurd h (by simp)
      · split at h
        · exact absurd h (by simp)
        · split at h
          · exact absurd h (by simp)
          · split at h
            · exact absurd h (by simp)
            · next hloop =>
              obtain ⟨h1, h2⟩ := Prod.mk.injEq .. ▸ h
              obtain rfl : fp = _ := by simpa using h1.symm
              subst h2
              refine ⟨uploadLoop_fresh hloop, rfl, fun f hf => ?_⟩
              simp [hf]

/-- Filesystem for the C10 witness: `pic.png` already exists. -/
def fsC10 : FS := ⟨[⟨["v", "pic.png"], "1", "img"⟩]⟩

theorem C10_witness :
    fsExists fsC10 ["v", "pic_1.png"] = false ∧
    (api_files_upload defaultConfig ["v"] fsC10 "pic.png" [] "data" "2").2.files
      = fsC10.files ++ [⟨["v", "pic_1.png"], "2", "data"⟩] := by
  have h := C10_upload_no_overwrite defaultConfig ["v"] fsC10 "pic.png" []
    "data" "2" ["v", "pic_1.png"]
    ⟨fsC10.files ++ [⟨["v", "pic_1.png"], "2", "data"⟩]⟩ (by decide)
  exact ⟨h.1, by decide⟩

/-! ### Wikilink scanning (`process_wikilinks`, src/server.py lines
179-207)

Both regexes `\[\[([^\]|]+?)(?:\|([^\]]*?))?\]\]` and its `!`-prefixed
embed variant are realised as an explicit scanner: at a match of `[[` the
target is the non-empty run of characters other than `]` and `|`,
followed either directly by `]]` or by `|`, an alias free of `]`, and
`]]`; on failure the scan advances one character, exactly as the regex
engine does.  The scanners take fuel (`length` of the input always
suffices: every step consumes at least one character) so that they are
structural recursions the kernel can evaluate. -/

/-- Attempt to parse `target(|alias)?]]` at the current position. -/
def tryWiki (cs : List Char) : Option (String × Option String × List Char) :=
  if (cs.takeWhile (fun c => decide (c ≠ ']') && decide (c ≠ '|'))) = [] then
    none
  else
    match cs.dropWhile (fun c => decide (c ≠ ']') && decide (c ≠ '|')) with
    | ']' :: ']' :: r2 =>
        some (String.mk (cs.takeWhile (fun c => decide (c ≠ ']') && decide (c ≠ '|'))),
          none, r2)
    | '|' :: r1 =>
        match r1.dropWhile (fun c => decide (c ≠ ']')) with
        | ']' :: ']' :: r2 =>
            some (String.mk (cs.takeWhile (fun c => decide (c ≠ ']') && decide (c ≠ '|'))),
              some (String.mk (r1.takeWhile (fun c => decide (c ≠ ']')))), r2)
        | _ => none
    | _ => none

/-- Attempt to match the wikilink regex at the current position. -/
def tryLinkAt : List Char → Option (String × Option String × List Char)
  | '[' :: '[' :: rest => tryWiki rest
  | _ => none

/-- Attempt to match the embed regex (`!` prefix, alias discarded) at the
current position. -/
def tryEmbedAt : List Char → Option (String × List Char)
  | '!' :: '[' :: '[' :: rest =>
      match tryWiki rest with
      | some (t, _, r2) => some (t, r2)
      | none => none
  | _ => none

/-- Non-overlapping left-to-right substitution of wikilinks. -/
def linkSubAux (f : String → Option String → String) :
    Nat → List Char → List Char
  | 0, cs => cs
  | _ + 1, [] => []
  | fuel + 1, c :: rest =>
      match tryLinkAt (c :: rest) with
      | some (t, al, r2) => (f t al).data ++ linkSubAux f fuel r2
      | none => c :: linkSubAux f fuel rest

/-- Non-overlapping left-to-right substitution of embeds. -/
def embedSubAux (f : String → String) : Nat → List Char → List Char
  | 0, cs => cs
  | _ + 1, [] => []
  | fuel + 1, c :: rest =>
      match tryEmbedAt (c :: rest) with
      | some (t, r2) => (f t).data ++ embedSubAux f fuel r2
      | none => c :: embedSubAux f fuel rest

/-- Wikilink targets of a text, in match order (the graph builder's
`wikilink_re.finditer`). -/
def findWikiAux : Nat → List Char → List String
  | 0, _ => []
  | _ + 1, [] => []
  | fuel + 1, c :: rest =>
      match tryLinkAt (c :: rest) with
      | some (t, _, r2) => t :: findWikiAux fuel r2
      | none => findWikiAux fuel rest

/-- All wikilink targets of a text. -/
def findWikilinks (s : String) : List String := findWikiAux s.data.length s.data

/-- Image extensions recognised by `process_wikilinks` (and the graph
builder). -/
def imageExts : List String := [".png", ".jpg", ".jpeg", ".gif", ".svg", ".webp"]

/-- Replacement for an embed match (`replace_embed`). -/
def replace_embed (target : String) : String :=
  if strLower (pySuffixOf target) ∈ imageExts then
    "![" ++ target ++ "](/raw/" ++ target ++ ")"
  else if strLower (pySuffixOf target) = ".pdf" then
    "[" ++ target ++ "](#pdf:" ++ target ++ ")"
  else "[" ++ target ++ "](#file:" ++ target ++ ")"

/-- Display text of a wikilink: the alias if present and truthy (Python's
`m.group(2) if m.group(2) else target` treats an empty alias as absent),
else the raw target. -/
def wikiDisplay (target : String) : Option String → String
  | some a => if a = "" then target else a
  | none => target

/-- Replacement for a wikilink match (`replace_link`). -/
def replace_link (target : String) (al : Option String) : String :=
  if strLower (pySuffixOf target) = ".pdf" then
    "[" ++ wikiDisplay target al ++ "](#pdf:" ++ target ++ ")"
  else if strLower (pySuffixOf target) ∈ imageExts then
    "[" ++ wikiDisplay target al ++ "](#img:" ++ target ++ ")"
  else if strLower (pySuffixOf target) = "" then
    "[" ++ wikiDisplay target al ++ "](#note:" ++ (target ++ ".md") ++ ")"
  else "[" ++ wikiDisplay target al ++ "](#note:" ++ target ++ ")"

/-- Translation of `process_wikilinks`: the embed pass followed by the
wikilink pass. -/
def process_wikilinks (s : String) : String :=
  String.mk (linkSubAux replace_link
    (embedSubAux replace_embed s.data.length s.data).length
    (embedSubAux replace_embed s.data.length s.data))

/-- Expected href of an expanded wikilink, written from the words of the
claim: `#pdf:target` for a PDF target, `#img:target` for an image target,
otherwise `#note:target` with `.md` appended exactly when the target has
no extension. -/
def hrefSpec (target : String) : String :=
  if strLower (pySuffixOf target) = ".pdf" then "#pdf:" ++ target
  else if strLower (pySuffixOf target) ∈ imageExts then "#img:" ++ target
  else if pySuffixOf target = "" then "#note:" ++ (target ++ ".md")
  else "#note:" ++ target

theorem strLower_eq_empty {s : String} : strLower s = "" ↔ s = "" := by
  constructor
  · intro h
    have : s.data.map charLower = [] := congrArg String.data h
    have : s.data = [] := by simpa using this
    exact String.ext this
  · rintro rfl; rfl

theorem takeWhile_append_all {p : Char → Bool} :
    ∀ {l₁ : List Char} (l₂ : List Char), (∀ c ∈ l₁, p c = true) →
      (l₁ ++ l₂).takeWhile p = l₁ ++ l₂.takeWhile p := by
  intro l₁
  induction l₁ with
  | nil => intro l₂ _; rfl
  | cons c l ih =>
      intro l₂ h
      have hc : p c = true := h c (by simp)
      simp [List.takeWhile, hc, ih l₂ (fun x hx => h x (by simp [hx]))]

theorem dropWhile_append_all {p : Char → Bool} :
    ∀ {l₁ : List Char} (l₂ : List Char), (∀ c ∈ l₁, p c = true) →
      (l₁ ++ l₂).dropWhile p = l₂.dropWhile p := by
  intro l₁
  induction l₁ with
  | nil => intro l₂ _; rfl
  | cons c l ih =>
      intro l₂ h
      have hc : p c = true := h c (by simp)
      simp [List.dropWhile, hc, ih l₂ (fun x hx => h x (by simp [hx]))]

theorem tryWiki_closed_none {t : String} (ht0 : t.data ≠ [])
    (ht : ∀ c ∈ t.data, c ≠ ']' ∧ c ≠ '|') :
    tryWiki (t.data ++ [']', ']']) = some (t, none, []) := by
  have hall : ∀ c ∈ t.data, (fun c => decide (c ≠ ']') && decide (c ≠ '|')) c = true := by
    intro c hc
    obtain ⟨h1, h2⟩ := ht c hc
    simp [h1, h2]
  have htake : (t.data ++ [']', ']']).takeWhile
      (fun c => decide (c ≠ ']') && decide (c ≠ '|')) = t.data := by
    rw [takeWhile_append_all _ hall]
    simp [List.takeWhile]
  have hdrop : (t.data ++ [']', ']']).dropWhile
      (fun c => decide (c ≠ ']') && decide (c ≠ '|')) = [']', ']'] := by
    rw [dropWhile_append_all _ hall]
    simp [List.dropWhile]
  unfold tryWiki
  rw [htake, hdrop, if_neg ht0]
  rfl

theorem tryWiki_closed_alias {t a : String} (ht0 : t.data ≠ [])
    (ht : ∀ c ∈ t.data, c ≠ ']' ∧ c ≠ '|')
    (ha : ∀ c ∈ a.data, c ≠ ']') :
    tryWiki (t.data ++ '|' :: (a.data ++ [']', ']'])) =
      some (t, some a, []) := by
  have hall : ∀ c ∈ t.data, (fun c => decide (c ≠ ']') && decide (c ≠ '|')) c = true := by
    intro c hc
    obtain ⟨h1, h2⟩ := ht c hc
    simp [h1, h2]
  have htake : (t.data ++ '|' :: (a.data ++ [']', ']'])).takeWhile
      (fun c => decide (c ≠ ']') && decide (c ≠ '|')) = t.data := by
    rw [takeWhile_append_all _ hall]
    simp [List.takeWhile]
  have hdrop : (t.data ++ '|' :: (a.data ++ [']', ']'])).dropWhile
      (fun c => decide (c ≠ ']') && decide (c ≠ '|')) =
        '|' :: (a.data ++ [']', ']']) := by
    rw [dropWhile_append_all _ hall]
    simp [List.dropWhile]
  have hall2 : ∀ c ∈ a.data, (fun c => decide (c ≠ ']')) c = true := by
    intro c hc
    simp [ha c hc]
  have htake2 : (a.data ++ [']', ']']).takeWhile (fun c => decide (c ≠ ']')) =
      a.data := by
    rw [takeWhile_append_all _ hall2]
    simp [List.takeWhile]
  have hdrop2 : (a.data ++ [']', ']']).dropWhile (fun c => decide (c ≠ ']')) =
      [']', ']'] := by
    rw [dropWhile_append_all _ hall2]
    simp [List.dropWhile]
  unfold tryWiki
  rw [htake, hdrop, if_neg ht0]
  simp only [htake2, hdrop2]

theorem tryEmbedAt_of_ne {c : Char} (rest : List Char) (h : c ≠ '!') :
    tryEmbedAt (c :: rest) = none := by
  unfold tryEmbedAt
  split
  · next heq => exact absurd (List.cons.injEq .. ▸ heq).1 h
  · rfl

theorem embedSubAux_no_bang (f : String → String) :
    ∀ (fuel : Nat) (cs : List Char), (∀ c ∈ cs, c ≠ '!') →
      embedSubAux f fuel cs = cs := by
  intro fuel
  induction fuel with
  | zero => intro cs _; rfl
  | succ fuel ih =>
      intro cs h
      match cs with
      | [] => rfl
      | c :: rest =>
          rw [embedSubAux, tryEmbedAt_of_ne rest (h c (by simp))]
          exact congrArg (c :: ·) (ih rest (fun x hx => h x (by simp [hx])))

theorem linkSubAux_nil (f : String → Option String → String) :
    ∀ fuel, linkSubAux f fuel [] = [] := by
  intro fuel; cases fuel <;> rfl

theorem linkSubAux_single (f : String → Option String → String)
    (fuel : Nat) (c : Char) (rest : List Char) (t : String)
    (al : Option String) (h : tryLinkAt (c :: rest) = some (t, al, [])) :
    linkSubAux f (fuel + 1) (c :: rest) = (f t al).data := by
  rw [linkSubAux, h]
  simp [linkSubAux_nil]

theorem replace_link_spec (t : String) (al : Option String) :
    replace_link t al = "[" ++ wikiDisplay t al ++ "](" ++ hrefSpec t ++ ")" := by
  unfold replace_link hrefSpec
  simp only [strLower_eq_empty]
  split_ifs <;>
    (apply String.ext; simp only [String.data_append, List.append_assoc]; rfl)

/-- C5 (amended): the wikilink pass rewrites `[[target]]` and
`[[target|alias]]` (for a well-formed target — non-empty, free of `]`,
`|` and of the embed marker `!` — and an alias free of `]` and `!`) into
a markdown link on `hrefSpec target`, which is `#pdf:`/`#img:`/`#note:`
by extension with `.md` appended exactly when the target has no
extension; the display text is the alias when one is given and
*non-empty*, else the raw target.  The original claim fails for an empty
alias, see `C5_counterexample`. -/
theorem C5_wikilink_expansion (t a : String) (ht0 : t ≠ "")
    (ht : ∀ c ∈ t.data, c ≠ ']' ∧ c ≠ '|' ∧ c ≠ '!')
    (ha0 : a ≠ "") (ha : ∀ c ∈ a.data, c ≠ ']' ∧ c ≠ '!') :
    process_wikilinks ("[[" ++ t ++ "]]") =
      "[" ++ t ++ "](" ++ hrefSpec t ++ ")" ∧
    process_wikilinks ("[[" ++ t ++ "|" ++ a ++ "]]") =
      "[" ++ a ++ "](" ++ hrefSpec t ++ ")" := by
  have htd : t.data ≠ [] := fun h => ht0 (String.ext (h.trans rfl))
  constructor
  · have hdata : ("[[" ++ t ++ "]]").data =
        '[' :: '[' :: (t.data ++ [']', ']']) := by
      simp only [String.data_append]
      rfl
    have hnb : ∀ c ∈ '[' :: '[' :: (t.data ++ [']', ']']), c ≠ '!' := by
      intro c hc
      simp only [List.mem_cons, List.mem_append] at hc
      rcases hc with rfl | rfl | hc | hc
      · decide
      · decide
      · exact (ht c hc).2.2
      · rcases hc with rfl | hc
        · decide
        · simp at hc; rw [hc]; decide
    have hlink : tryLinkAt ('[' :: '[' :: (t.data ++ [']', ']'])) =
        some (t, none, []) := by
      unfold tryLinkAt
      exact tryWiki_closed_none htd (fun c hc => ⟨(ht c hc).1, (ht c hc).2.1⟩)
    unfold process_wikilinks
    rw [hdata, embedSubAux_no_bang _ _ _ hnb]
    rw [show ('[' :: '[' :: (t.data ++ [']', ']'])).length =
        ('[' :: (t.data ++ [']', ']'])).length + 1 from rfl]
    rw [linkSubAux_single _ _ _ _ _ _ hlink]
    rw [show String.mk (replace_link t none).data = replace_link t none from rfl]
    rw [replace_link_spec]
    rfl
  · have hdata : ("[[" ++ t ++ "|" ++ a ++ "]]").data =
        '[' :: '[' :: (t.data ++ '|' :: (a.data ++ [']', ']'])) := by
      simp only [String.data_append, List.append_assoc]
      rfl
    have hnb : ∀ c ∈ '[' :: '[' :: (t.data ++ '|' :: (a.data ++ [']', ']'])),
        c ≠ '!' := by
      intro c hc
      simp only [List.mem_cons, List.mem_append] at hc
      rcases hc with rfl | rfl | hc | rfl | hc | hc
      · decide
      · decide
      · exact (ht c hc).2.2
      · decide
      · exact (ha c hc).2
      · rcases hc with rfl | hc
        · decide
        · simp at hc; rw [hc]; decide
    have hlink : tryLinkAt ('[' :: '[' :: (t.data ++ '|' :: (a.data ++ [']', ']']))) =
        some (t, some a, []) := by
      unfold tryLinkAt
      exact tryWiki_closed_alias htd
        (fun c hc => ⟨(ht c hc).1, (ht c hc).2.1⟩)
        (fun c hc => (ha c hc).1)
    unfold process_wikilinks
    rw [hdata, embedSubAux_no_bang _ _ _ hnb]
    rw [show ('[' :: '[' :: (t.data ++ '|' :: (a.data ++ [']', ']']))).length =
        ('[' :: (t.data ++ '|' :: (a.data ++ [']', ']']))).length + 1 from rfl]
    rw [linkSubAux_single _ _ _ _ _ _ hlink]
    rw [show String.mk (replace_link t (some a)).data = replace_link t (some a)
      from rfl]
    rw [replace_link_spec]
    simp [wikiDisplay, ha0]

theorem C5_witness :
    process_wikilinks "[[Foo]]" = "[Foo](#note:Foo.md)" ∧
    process_wikilinks "[[docs/Paper.pdf|the paper]]" =
      "[the paper](#pdf:docs/Paper.pdf)" := by
  constructor
  · rw [show ("[[Foo]]" : String) = "[[" ++ "Foo" ++ "]]" from by decide,
      (C5_wikilink_expansion "Foo" "x" (by decide) (by decide) (by decide)
        (by decide)).1]
    decide
  · rw [show ("[[docs/Paper.pdf|the paper]]" : String) =
        "[[" ++ "docs/Paper.pdf" ++ "|" ++ "the paper" ++ "]]" from by decide,
      (C5_wikilink_expansion "docs/Paper.pdf" "the paper" (by decide)
        (by decide) (by decide) (by decide)).2]
    decide

/-- C5 (counterexample to the claim as stated): in `[[foo|]]` an alias is
given (the pipe is present, the alias is the empty string), yet the
display text is the raw target, because the code treats a falsy alias as
absent.  The claim's "display text is the alias when given" predicts
`[](#note:foo.md)`. -/
theorem C5_counterexample :
    process_wikilinks "[[foo|]]" = "[foo](#note:foo.md)" ∧
    "[foo](#note:foo.md)" ≠ "[](#note:foo.md)" := by
  refine ⟨by decide, by decide⟩

/-! ### Vault-relative filesystem views

For the walker, tree builder and graph builder the filesystem is a list
of vault-relative files (`VFile` with `path` relative to the vault root),
in the deterministic order `sorted(VAULT.rglob("*"))` produces.  Empty
directories cannot be represented (no claim involves one).  Directory
listings are derived from the file paths; `os.scandir` order is
unspecified in Python and the model fixes first-appearance order, which
every consumer immediately sorts. -/

/-- Total number of path segments — the recursion measure for directory
walks; any fuel above it is adequate. -/
def fsWeight (fs : List VFile) : Nat := (fs.map (fun f => f.path.length)).sum

/-- Names of the entries in the current directory. -/
def levelNames (fs : List VFile) : List String :=
  (fs.filterMap (fun f => f.path.head?)).dedup

/-- Whether the entry called `n` in the current directory is a
(sub)directory. -/
def isDirName (fs : List VFile) (n : String) : Bool :=
  fs.any (fun f => decide (f.path.head? = some n) && decide (2 ≤ f.path.length))

/-- The files inside subdirectory `n`, paths made relative to it. -/
def childFS (fs : List VFile) (n : String) : List VFile :=
  (fs.filter (fun f => decide (f.path.head? = some n) && decide (2 ≤ f.path.length))).map
    (fun f => { f with path := f.path.tail })

/-- Mtime of the file called `n` in the current directory. -/
def fileMtime (fs : List VFile) (n : String) : String :=
  ((fs.find? (fun f => decide (f.path = [n]))).map (fun f => f.mtime)).getD ""

theorem childFS_cons (f : VFile) (rest : List VFile) (n : String) :
    childFS (f :: rest) n =
      if (decide (f.path.head? = some n) && decide (2 ≤ f.path.length)) = true
      then { f with path := f.path.tail } :: childFS rest n
      else childFS rest n := by
  by_cases hp : (decide (f.path.head? = some n) && decide (2 ≤ f.path.length)) = true <;>
    simp [childFS, List.filter_cons, hp]

theorem fsWeight_cons (f : VFile) (rest : List VFile) :
    fsWeight (f :: rest) = f.path.length + fsWeight rest := by
  simp [fsWeight]

theorem fsWeight_childFS_le (fs : List VFile) (n : String) :
    fsWeight (childFS fs n) ≤ fsWeight fs := by
  induction fs with
  | nil => simp [childFS, fsWeight]
  | cons f rest ih =>
      rw [childFS_cons, fsWeight_cons]
      split
      · rw [fsWeight_cons]
        dsimp only
        have h2 : f.path.tail.length ≤ f.path.length := by
          simp [List.length_tail]
        omega
      · omega

theorem fsWeight_childFS_lt {fs : List VFile} {n : String}
    (h : isDirName fs n = true) : fsWeight (childFS fs n) < fsWeight fs := by
  induction fs with
  | nil => simp [isDirName] at h
  | cons f rest ih =>
      rw [childFS_cons, fsWeight_cons]
      split
      · next hp =>
        rw [Bool.and_eq_true] at hp
        have hlen : 2 ≤ f.path.length := of_decide_eq_true hp.2
        have hle := fsWeight_childFS_le rest n
        rw [fsWeight_cons]
        dsimp only
        have h2 : f.path.tail.length = f.path.length - 1 := by
          simp [List.length_tail]
        omega
      · next hp =>
        have h' : isDirName rest n = true := by
          simp only [isDirName, List.any_cons, Bool.or_eq_true] at h
          rcases h with h1 | h2
          · exact absurd h1 hp
          · simpa [isDirName] using h2
        have := ih h'
        omega

/-! ### Tree Builder (`build_tree`, src/server.py lines 137-163) -/

/-- Directory entry as `iterdir` yields it. -/
structure DEntry where
  name : String
  isDir : Bool
deriving Repr, DecidableEq

/-- Sort key of `build_tree`: `(not e.is_dir(), e.name.lower())`. -/
def entryKey (e : DEntry) : Lex (Bool × String) := toLex (!e.isDir, strLower e.name)

/-- Ordering relation the Python `sorted` key induces on entries. -/
def entryLe (a b : DEntry) : Prop := entryKey a ≤ entryKey b

instance : DecidableRel entryLe := fun a b =>
  inferInstanceAs (Decidable (entryKey a ≤ entryKey b))

instance : IsTotal DEntry entryLe := ⟨fun a b => le_total (entryKey a) (entryKey b)⟩

instance : IsTrans DEntry entryLe := ⟨fun _ _ _ h1 h2 => le_trans h1 h2⟩

/-- The entries of the current directory. -/
def levelEntries (fs : List VFile) : List DEntry :=
  (levelNames fs).map (fun n => ⟨n, isDirName fs n⟩)

/-- Entries sorted folders-first, then case-insensitively by name
(`sorted(..., key=lambda e: (not e.is_dir(), e.name.lower()))`; Python's
sort is stable, as is insertion sort). -/
def sortEntries (es : List DEntry) : List DEntry := List.insertionSort entryLe es

/-- Whether a name starts with a dot. -/
def startsDot (s : String) : Bool := s.data.head? = some '.'

/-- The three `continue` filters of the `build_tree` loop (the first is
subsumed by the second but translated nonetheless). -/
def keepEntry (cfg : Config) (e : DEntry) : Bool :=
  !((startsDot e.name && decide (e.name ∈ cfg.excluded_dirs)) ||
    decide (e.name ∈ cfg.excluded_dirs) ||
    (!e.isDir && decide (e.name ∈ cfg.excluded_files)))

/-- Node of the UI tree. -/
inductive TNode where
  | folder (name path : String) (children : List TNode)
  | file (name path : String) (editable : Bool)

/-- Translation of `build_tree`, fuelled so that it is a structural
recursion (`fsWeight fs + 1` fuel always suffices: recursing into a
subdirectory strictly decreases `fsWeight`, see `fsWeight_childFS_lt`).
`PermissionError` cannot arise in the model (no permissions). -/
def build_tree_aux (cfg : Config) (owned : List String) :
    Nat → List VFile → List String → List TNode
  | 0, _, _ => []
  | fuel + 1, fs, rel =>
      ((sortEntries (levelEntries fs)).filter (keepEntry cfg)).map
        (fun e =>
          if e.isDir then
            TNode.folder e.name (relStr (rel ++ [e.name]))
              (build_tree_aux cfg owned fuel (childFS fs e.name) (rel ++ [e.name]))
          else
            TNode.file e.name (relStr (rel ++ [e.name]))
              (cfg.allow_edit_all ||
                owned.any (fun r => decide (r = relStr (rel ++ [e.name])))))

/-- The tree builder at the vault root. -/
def build_tree (cfg : Config) (owned : List String) (fs : List VFile) :
    List TNode :=
  build_tree_aux cfg owned (fsWeight fs + 1) fs []

/-- Name of a tree node. -/
def nameOf : TNode → String
  | .folder n _ _ => n
  | .file n _ _ => n

/-- The filter of `generate_tree`'s `clean`. -/
def keepName (i : TNode) : Bool :=
  decide (nameOf i ∉ (["_site", "build_static.py", ".github"] : List String))

/-- The recursive `clean` of `generate_tree` (src/build_static.py lines
87-95), fuelled on tree size. -/
def cleanTree : Nat → List TNode → List TNode
  | 0, items => items
  | fuel + 1, items =>
      (items.filter keepName).map (fun i =>
        match i with
        | TNode.folder n p c => TNode.folder n p (cleanTree fuel c)
        | other => other)

/-- Translation of `generate_tree` (src/build_static.py lines 83-95):
the live tree builder with an empty ownership set, then `clean`.  The
clean fuel `fsWeight fs + 1` bounds the tree's folder depth, since each
`build_tree_aux` level consumes one unit of the same fuel. -/
def generate_tree (cfg : Config) (fs : List VFile) : List TNode :=
  cleanTree (fsWeight fs + 1) (build_tree cfg [] fs)

/-! ### C8: ordering invariant of the tree builder -/

/-- Sort key of a produced tree node, mirroring `entryKey`. -/
def tKey : TNode → Lex (Bool × String)
  | .folder n _ _ => toLex (false, strLower n)
  | .file n _ _ => toLex (true, strLower n)

/-- Ordering invariant at every level of a tree: the children sequence is
sorted by (folders before files, then case-insensitive name), and the
same holds inside every folder. -/
inductive AllOrdered : List TNode → Prop where
  | mk (l : List TNode) (hsort : l.Pairwise (fun a b => tKey a ≤ tKey b))
      (hrec : ∀ n p c, TNode.folder n p c ∈ l → AllOrdered c) : AllOrdered l

theorem build_tree_aux_ordered (cfg : Config) (owned : List String) :
    ∀ (fuel : Nat) (fs : List VFile) (rel : List String),
      AllOrdered (build_tree_aux cfg owned fuel fs rel) := by
  intro fuel
  induction fuel with
  | zero =>
      intro fs rel
      exact AllOrdered.mk [] (by simp) (by simp)
  | succ fuel ih =>
      intro fs rel
      rw [build_tree_aux]
      refine AllOrdered.mk _ ?_ ?_
      · apply List.pairwise_map.mpr
        have hs : ((sortEntries (levelEntries fs)).filter (keepEntry cfg)).Pairwise entryLe :=
          List.Pairwise.filter _ (List.sorted_insertionSort entryLe (levelEntries fs))
        refine hs.imp ?_
        intro a b hab
        have key_eq : ∀ (e : DEntry),
            tKey (if e.isDir then
                TNode.folder e.name (relStr (rel ++ [e.name]))
                  (build_tree_aux cfg owned fuel (childFS fs e.name) (rel ++ [e.name]))
              else
                TNode.file e.name (relStr (rel ++ [e.name]))
                  (cfg.allow_edit_all ||
                    owned.any (fun r => decide (r = relStr (rel ++ [e.name]))))) =
              entryKey e := by
          intro e
          by_cases he : e.isDir <;> simp [he, tKey, entryKey]
        rw [key_eq a, key_eq b]
        exact hab
      · intro n p c hmem
        obtain ⟨e, hmem', heq⟩ := List.mem_map.mp hmem
        by_cases he : e.isDir
        · rw [if_pos he] at heq
          obtain ⟨-, -, rfl⟩ := TNode.folder.injEq .. ▸ heq
          exact ih _ _
        · rw [if_neg he] at heq
          exact absurd heq (by simp)

/-- C8: in every tree produced by the Tree Builder, at every level all
folder nodes come before all file nodes and, within each group, entries
are ordered case-insensitively by name (the Python sort key
`(not is_dir, name.lower())` transported through the exclusion filter,
which preserves order). -/
theorem C8_build_tree_ordered (cfg : Config) (owned : List String)
    (fs : List VFile) : AllOrdered (build_tree cfg owned fs) :=
  build_tree_aux_ordered cfg owned _ fs []

/-! ### C9: editability in the static tree -/

/-- Every file node, at every depth, has `editable = false`. -/
inductive AllUneditable : List TNode → Prop where
  | mk (l : List TNode)
      (hfile : ∀ n p e, TNode.file n p e ∈ l → e = false)
      (hrec : ∀ n p c, TNode.folder n p c ∈ l → AllUneditable c) :
      AllUneditable l

theorem build_tree_aux_uneditable (cfg : Config)
    (hcfg : cfg.allow_edit_all = false) :
    ∀ (fuel : Nat) (fs : List VFile) (rel : List String),
      AllUneditable (build_tree_aux cfg [] fuel fs rel) := by
  intro fuel
  induction fuel with
  | zero =>
      intro fs rel
      exact AllUneditable.mk [] (by simp) (by simp)
  | succ fuel ih =>
      intro fs rel
      rw [build_tree_aux]
      refine AllUneditable.mk _ ?_ ?_
      · intro n p e hmem
        obtain ⟨en, hmem', heq⟩ := List.mem_map.mp hmem
        by_cases he : en.isDir
        · rw [if_pos he] at heq
          exact absurd heq (by simp)
        · rw [if_neg he] at heq
          obtain ⟨-, -, rfl⟩ := TNode.file.injEq .. ▸ heq
          simp [hcfg]
      · intro n p c hmem
        obtain ⟨en, hmem', heq⟩ := List.mem_map.mp hmem
        by_cases he : en.isDir
        · rw [if_pos he] at heq
          obtain ⟨-, -, rfl⟩ := TNode.folder.injEq .. ▸ heq
          exact ih _ _
        · rw [if_neg he] at heq
          exact absurd heq (by simp)

theorem cleanTree_uneditable :
    ∀ (fuel : Nat) (items : List TNode), AllUneditable items →
      AllUneditable (cleanTree fuel items) := by
  intro fuel
  induction fuel with
  | zero => intro items h; exact h
  | succ fuel ih =>
      intro items h
      obtain ⟨_, hfile, hrec⟩ := h
      rw [cleanTree]
      refine AllUneditable.mk _ ?_ ?_
      · intro n p e hmem
        obtain ⟨i, hi, heq⟩ := List.mem_map.mp hmem
        have hi' := List.mem_of_mem_filter hi
        match i, heq with
        | TNode.folder _ _ _, heq => exact absurd heq (by simp)
        | TNode.file n' p' e', heq =>
            obtain ⟨-, -, rfl⟩ := TNode.file.injEq .. ▸ heq
            exact hfile n' p' e' hi'
      · intro n p c hmem
        obtain ⟨i, hi, heq⟩ := List.mem_map.mp hmem
        have hi' := List.mem_of_mem_filter hi
        match i, heq with
        | TNode.folder n' p' c', heq =>
            obtain ⟨-, -, rfl⟩ := TNode.folder.injEq .. ▸ heq
            exact ih c' (hrec n' p' c' hi')
        | TNode.file _ _ _, heq => exact absurd heq (by simp)

/-- C9 (amended): with the edit-all switch disabled (the default), every
file node of the tree document emitted by the static export has
`editable = false`.  The "regardless of server configuration" part of
the claim fails: `generate_tree` reuses `build_tree`, whose `editable`
is `ALLOW_EDIT_ALL or …`, so an `allow_edit_all: true` configuration
leaks `editable = true` nodes into the snapshot — see
`C9_counterexample`. -/
theorem C9_generate_tree_uneditable (cfg : Config) (fs : List VFile)
    (h : cfg.allow_edit_all = false) : AllUneditable (generate_tree cfg fs) :=
  cleanTree_uneditable _ _ (build_tree_aux_uneditable cfg h _ fs [])

theorem C9_witness :
    AllUneditable (generate_tree defaultConfig [⟨["a.md"], "0", ""⟩]) :=
  C9_generate_tree_uneditable defaultConfig [⟨["a.md"], "0", ""⟩] rfl

/-- C9 (counterexample to the claim as stated): with `allow_edit_all`
enabled in the configuration, the static export's tree marks every file
editable — the snapshot tree is not `editable = false` regardless of
server configuration. -/
theorem C9_counterexample :
    ¬ AllUneditable (generate_tree editAllConfig [⟨["a.md"], "0", ""⟩]) := by
  intro h
  have heq : generate_tree editAllConfig [⟨["a.md"], "0", ""⟩] =
      [TNode.file "a.md" "a.md" true] := rfl
  rw [heq] at h
  cases h with
  | mk _ hfile _ => simpa using hfile "a.md" "a.md" true (by simp)

/-! ### Vault Walker and Change Detector (`_walk_vault`, `_get_tree_hash`,
src/server.py lines 62-94) -/

/-- Name order used by `sorted(os.scandir(d), key=lambda e: e.name)`. -/
def nameLe (a b : String) : Prop := a ≤ b

instance : DecidableRel nameLe := fun a b => inferInstanceAs (Decidable (a ≤ b))

instance : IsTotal String nameLe := ⟨fun a b => le_total a b⟩

instance : IsTrans String nameLe := ⟨fun _ _ _ h1 h2 => le_trans h1 h2⟩

instance : IsAntisymm String nameLe := ⟨fun _ _ h1 h2 => le_antisymm h1 h2⟩

/-- Directory-level names in scandir-sorted order. -/
def sortNames (l : List String) : List String := List.insertionSort nameLe l

/-- Translation of `_walk_vault`.  The explicit LIFO stack of the source
is rendered as the equivalent recursion: a directory's files are yielded
in name order while subdirectories are pushed in name order and therefore
popped — and their subtrees fully emitted — in reverse name order.
Excluded directory names are pruned, excluded file names skipped.
Fuelled structurally; `fsWeight fs + 1` suffices. -/
def walkVault (cfg : Config) : Nat → List VFile → List String →
    List (List String × String)
  | 0, _, _ => []
  | fuel + 1, fs, pre =>
      ((sortNames (levelNames fs)).filter
          (fun n => !isDirName fs n && !decide (n ∈ cfg.excluded_files))).map
        (fun n => (pre ++ [n], fileMtime fs n))
      ++ ((sortNames (levelNames fs)).filter
          (fun n => isDirName fs n && !decide (n ∈ cfg.excluded_dirs))).reverse.flatMap
        (fun n => walkVault cfg fuel (childFS fs n) (pre ++ [n]))

/-- The walk of the whole vault. -/
def walk_vault (cfg : Config) (fs : List VFile) : List (List String × String) :=
  walkVault cfg (fsWeight fs + 1) fs []

/-- The byte string `_get_tree_hash` feeds to `md5` — the concatenation
of `f"{rel}:{mtime}"` over the walk.  The digest is a deterministic
function of this string, so fingerprint equality is decided by it (the
spec itself treats hash collisions as negligible); the TTL cache of
`_get_tree_hash` is real-time behaviour outside this model, which
describes one (re)computation. -/
def tree_hash_input (cfg : Config) (fs : List VFile) : String :=
  String.join ((walk_vault cfg fs).map (fun pm => relStr pm.1 ++ ":" ++ pm.2))

/-- A vault-relative file the walker reaches and yields: no excluded
directory name among its ancestor directories and a file name that is
not excluded. -/
def inclB (cfg : Config) (f : VFile) : Bool :=
  f.path.dropLast.all (fun s => decide (s ∉ cfg.excluded_dirs)) &&
    decide (lastSegD f.path ∉ cfg.excluded_files)

/-- Well-formedness of a vault-relative file list, true of every real
directory tree: paths are non-empty, no file path is a (proper) prefix
of another (a path cannot be both a file and a directory), and paths are
distinct. -/
def WFfs (fs : List VFile) : Prop :=
  (∀ f ∈ fs, f.path ≠ []) ∧
  (∀ f ∈ fs, ∀ g ∈ fs, f.path <+: g.path → f.path = g.path) ∧
  (fs.map (fun f => f.path)).Nodup

theorem WFfs_filter (p : VFile → Bool) {fs : List VFile} (h : WFfs fs) :
    WFfs (fs.filter p) := by
  obtain ⟨h1, h2, h3⟩ := h
  refine ⟨?_, ?_, ?_⟩
  · intro f hf; exact h1 f (List.mem_of_mem_filter hf)
  · intro f hf g hg
    exact h2 f (List.mem_of_mem_filter hf) g (List.mem_of_mem_filter hg)
  · have hsub : ((fs.filter p).map (fun f => f.path)).Sublist
        (fs.map (fun f => f.path)) := (List.filter_sublist fs).map _
    exact h3.sublist hsub

/-- Selection shape of the `childFS` filter: a selected entry's path is
`n` consed onto its non-empty tail. -/
theorem childFS_selected {g : VFile} {n : String}
    (h : (decide (g.path.head? = some n) && decide (2 ≤ g.path.length)) = true) :
    g.path = n :: g.path.tail ∧ g.path.tail ≠ [] := by
  rw [Bool.and_eq_true] at h
  have h1 : g.path.head? = some n := of_decide_eq_true h.1
  have h2 : 2 ≤ g.path.length := of_decide_eq_true h.2
  cases hp : g.path with
  | nil => rw [hp] at h1; simp at h1
  | cons a t =>
      rw [hp] at h1 h2
      simp only [List.head?_cons, Option.some.injEq] at h1
      subst h1
      refine ⟨by simp, ?_⟩
      intro ht
      simp only [List.tail_cons] at ht
      subst ht
      simp at h2

theorem WFfs_childFS {fs : List VFile} (h : WFfs fs) (n : String) :
    WFfs (childFS fs n) := by
  obtain ⟨h1, h2, h3⟩ := h
  refine ⟨?_, ?_, ?_⟩
  · intro f hf
    obtain ⟨g, hg, rfl⟩ := List.mem_map.mp hf
    exact (childFS_selected ((List.mem_filter.mp hg).2)).2
  · intro f hf g hg hpre
    obtain ⟨f0, hf0, rfl⟩ := List.mem_map.mp hf
    obtain ⟨g0, hg0, rfl⟩ := List.mem_map.mp hg
    obtain ⟨hfeq, -⟩ := childFS_selected ((List.mem_filter.mp hf0).2)
    obtain ⟨hgeq, -⟩ := childFS_selected ((List.mem_filter.mp hg0).2)
    have hpre' : f0.path <+: g0.path := by
      rw [hfeq, hgeq]
      exact List.cons_prefix_cons.mpr ⟨rfl, hpre⟩
    have heq := h2 f0 (List.mem_of_mem_filter hf0) g0
      (List.mem_of_mem_filter hg0) hpre'
    show f0.path.tail = g0.path.tail
    rw [heq]
  · simp only [childFS, List.map_map]
    have hA : ((fs.filter (fun f => decide (f.path.head? = some n) &&
        decide (2 ≤ f.path.length))).map (fun f => f.path)).Nodup :=
      h3.sublist ((List.filter_sublist fs).map _)
    have : ((fs.filter (fun f => decide (f.path.head? = some n) &&
        decide (2 ≤ f.path.length))).map
          ((fun f => f.path) ∘ (fun f => { f with path := f.path.tail }))) =
        ((fs.filter (fun f => decide (f.path.head? = some n) &&
          decide (2 ≤ f.path.length))).map (fun f => f.path)).map List.tail := by
      rw [List.map_map]
      rfl
    rw [this]
    refine List.Nodup.map_on ?_ hA
    intro p1 hp1 p2 hp2 htl
    obtain ⟨g1, hg1, rfl⟩ := List.mem_map.mp hp1
    obtain ⟨g2, hg2, rfl⟩ := List.mem_map.mp hp2
    obtain ⟨he1, -⟩ := childFS_selected ((List.mem_filter.mp hg1).2)
    obtain ⟨he2, -⟩ := childFS_selected ((List.mem_filter.mp hg2).2)
    rw [he1, he2, htl]

theorem walkVault_nil (cfg : Config) :
    ∀ (fuel : Nat) (pre : List String), walkVault cfg fuel [] pre = [] := by
  intro fuel pre
  cases fuel with
  | zero => rfl
  | succ fuel =>
      rw [walkVault]
      simp [levelNames, sortNames, List.insertionSort]

theorem mem_levelNames {fs : List VFile} {n : String} :
    n ∈ levelNames fs ↔ ∃ f ∈ fs, f.path.head? = some n := by
  simp [levelNames, List.mem_dedup, List.mem_filterMap]

theorem mem_sortNames {l : List String} {n : String} :
    n ∈ sortNames l ↔ n ∈ l :=
  (List.perm_insertionSort nameLe l).mem_iff

theorem sortNames_sorted (l : List String) : List.Sorted nameLe (sortNames l) :=
  List.sorted_insertionSort nameLe l

theorem sortNames_nodup {l : List String} (h : l.Nodup) :
    (sortNames l).Nodup :=
  h.perm (List.perm_insertionSort nameLe l).symm

theorem levelNames_nodup (fs : List VFile) : (levelNames fs).Nodup :=
  List.nodup_dedup _

theorem isDirName_iff {fs : List VFile} {n : String} :
    isDirName fs n = true ↔ ∃ f ∈ fs, f.path.head? = some n ∧ 2 ≤ f.path.length := by
  simp [isDirName, List.any_eq_true]

/-- Two sorted duplicate-free name lists with the same members are
equal. -/
theorem eq_of_sorted_mem {l₁ l₂ : List String}
    (s1 : List.Sorted nameLe l₁) (s2 : List.Sorted nameLe l₂)
    (n1 : l₁.Nodup) (n2 : l₂.Nodup) (h : ∀ n, n ∈ l₁ ↔ n ∈ l₂) : l₁ = l₂ :=
  List.eq_of_perm_of_sorted ((List.perm_ext_iff_of_nodup n1 n2).mpr h) s1 s2

theorem flatMap_congr {α β : Type} {l : List α} {f g : α → List β}
    (h : ∀ a ∈ l, f a = g a) : l.flatMap f = l.flatMap g := by
  induction l with
  | nil => rfl
  | cons a t ih =>
      simp only [List.flatMap_cons, h a (by simp)]
      rw [ih (fun x hx => h x (by simp [hx]))]

theorem flatMap_filter_of_empty {α β : Type} {l : List α} {q : α → Bool}
    {g : α → List β} (h : ∀ a ∈ l, q a = false → g a = []) :
    (l.filter q).flatMap g = l.flatMap g := by
  induction l with
  | nil => rfl
  | cons a t ih =>
      by_cases hq : q a = true
      · simp only [List.filter_cons, hq, if_pos, List.flatMap_cons]
        rw [ih (fun x hx => h x (by simp [hx]))]
      · have hq' : q a = false := by simpa using hq
        simp only [List.filter_cons, hq', List.flatMap_cons,
          h a (by simp) hq']
        simp only [List.nil_append]
        exact ih (fun x hx => h x (by simp [hx]))

theorem find?_filter_of_imp {α : Type} {p q : α → Bool} {l : List α}
    (h : ∀ x, p x = true → q x = true) :
    (l.filter q).find? p = l.find? p := by
  induction l with
  | nil => rfl
  | cons a t ih =>
      by_cases hq : q a = true
      · by_cases hp : p a = true
        · simp [List.filter_cons, hq, List.find?_cons, hp]
        · have hp' : p a = false := by simpa using hp
          simp [List.filter_cons, hq, List.find?_cons, hp', ih]
      · have hq' : q a = false := by simpa using hq
        have hp' : p a = false := by
          by_contra hc
          exact hq (h a (by simpa using hc))
        simp [List.filter_cons, hq', List.find?_cons, hp', ih]

theorem dropLast_cons_ne {n : String} {t : List String} (h : t ≠ []) :
    (n :: t).dropLast = n :: t.dropLast := by
  cases t with
  | nil => exact absurd rfl h
  | cons a r => exact List.dropLast_cons₂

theorem getLastD_irrel {t : List String} (h : t ≠ []) (d d' : String) :
    t.getLastD d = t.getLastD d' := by
  cases t with
  | nil => exact absurd rfl h
  | cons a r => rw [List.getLastD_cons, List.getLastD_cons]

theorem lastSegD_cons_ne {n : String} {t : List String} (h : t ≠ []) :
    lastSegD (n :: t) = lastSegD t := by
  unfold lastSegD
  rw [List.getLastD_cons]
  exact getLastD_irrel h n ""

theorem childFS_eq_nil_of_not_dir {fs : List VFile} {n : String}
    (h : isDirName fs n = false) : childFS fs n = [] := by
  unfold childFS
  rw [List.filter_eq_nil_iff.mpr, List.map_nil]
  intro f hf
  intro hc
  rw [Bool.and_eq_true] at hc
  have : isDirName fs n = true :=
    isDirName_iff.mpr ⟨f, hf, of_decide_eq_true hc.1, of_decide_eq_true hc.2⟩
  rw [this] at h
  exact Bool.noConfusion h

/-- For a directory name that is not excluded, filtering the vault to its
included files commutes with descending into the directory. -/
theorem childFS_filter_comm {cfg : Config} {fs : List VFile} {n : String}
    (hn : n ∉ cfg.excluded_dirs) :
    childFS (fs.filter (inclB cfg)) n = (childFS fs n).filter (inclB cfg) := by
  unfold childFS
  rw [List.filter_map]
  rw [List.filter_filter, List.filter_filter]
  apply congrArg
  apply List.filter_congr
  intro f _
  by_cases hp : (decide (f.path.head? = some n) && decide (2 ≤ f.path.length)) = true
  · obtain ⟨hfeq, htne⟩ := childFS_selected hp
    have hincl : inclB cfg f = inclB cfg { f with path := f.path.tail } := by
      unfold inclB
      dsimp only
      conv_lhs => rw [hfeq]
      rw [dropLast_cons_ne htne, lastSegD_cons_ne htne]
      simp [hn]
    rw [hp]
    simp only [Function.comp]
    rw [hincl]
    rw [Bool.and_comm]
  · have hp' : (decide (f.path.head? = some n) &&
        decide (2 ≤ f.path.length)) = false := by simpa using hp
    rw [hp']
    simp

/-- In a well-formed tree, a level name that is not a directory is a file
directly at this level. -/
theorem file_name_singleton {fs : List VFile} (hwf : WFfs fs) {n : String}
    (hmem : n ∈ levelNames fs) (hdir : isDirName fs n = false) :
    ∃ f ∈ fs, f.path = [n] := by
  obtain ⟨f, hf, hhead⟩ := mem_levelNames.mp hmem
  cases hp : f.path with
  | nil => exact absurd hp (hwf.1 f hf)
  | cons a t =>
      rw [hp] at hhead
      simp only [List.head?_cons, Option.some.injEq] at hhead
      rw [hhead] at hp
      cases t with
      | nil => exact ⟨f, hf, hp⟩
      | cons b r =>
          have : isDirName fs n = true :=
            isDirName_iff.mpr ⟨f, hf, by rw [hp]; rfl, by rw [hp]; simp⟩
          rw [this] at hdir
          exact absurd hdir (by simp)

/-- In a well-formed tree, a name carrying a file at this level is not
also a directory. -/
theorem not_dir_of_file {fs : List VFile} (hwf : WFfs fs) {f : VFile}
    {n : String} (hf : f ∈ fs) (hfp : f.path = [n]) :
    isDirName fs n = false := by
  by_contra hc
  obtain ⟨g, hg, hgh, hgl⟩ := isDirName_iff.mp (by simpa using hc)
  have hgp : g.path = n :: g.path.tail ∧ g.path.tail ≠ [] :=
    childFS_selected (by simp [hgh, hgl])
  have hpre : f.path <+: g.path := by
    rw [hfp, hgp.1]
    exact List.cons_prefix_cons.mpr ⟨rfl, List.nil_prefix⟩
  have := hwf.2.1 f hf g hg hpre
  rw [hfp, hgp.1] at this
  have := (List.cons.injEq .. ▸ this).2
  exact hgp.2 this.symm

theorem inclB_singleton {cfg : Config} {f : VFile} {n : String}
    (hfp : f.path = [n]) (hnf : n ∉ cfg.excluded_files) :
    inclB cfg f = true := by
  unfold inclB
  rw [hfp]
  simp [lastSegD, hnf]

theorem isDirName_filter_mono {p : VFile → Bool} {fs : List VFile}
    {n : String} (h : isDirName (fs.filter p) n = true) :
    isDirName fs n = true := by
  obtain ⟨f, hf, h1, h2⟩ := isDirName_iff.mp h
  exact isDirName_iff.mpr ⟨f, List.mem_of_mem_filter hf, h1, h2⟩

theorem fileMtime_filter (cfg : Config) {fs : List VFile} {n : String}
    (hnf : n ∉ cfg.excluded_files) :
    fileMtime (fs.filter (inclB cfg)) n = fileMtime fs n := by
  unfold fileMtime
  rw [find?_filter_of_imp]
  intro x hx
  exact inclB_singleton (of_decide_eq_true hx) hnf

theorem fileNames_filter_eq (cfg : Config) {fs : List VFile} (hwf : WFfs fs) :
    (sortNames (levelNames (fs.filter (inclB cfg)))).filter
        (fun n => !isDirName (fs.filter (inclB cfg)) n &&
          !decide (n ∈ cfg.excluded_files)) =
      (sortNames (levelNames fs)).filter
        (fun n => !isDirName fs n && !decide (n ∈ cfg.excluded_files)) := by
  apply eq_of_sorted_mem
  · exact (sortNames_sorted _).filter _
  · exact (sortNames_sorted _).filter _
  · exact (sortNames_nodup (levelNames_nodup _)).filter _
  · exact (sortNames_nodup (levelNames_nodup _)).filter _
  · intro n
    simp only [List.mem_filter, mem_sortNames, Bool.and_eq_true,
      Bool.not_eq_true']
    constructor
    · rintro ⟨hmem, hdir', hnf⟩
      have hnf' : n ∉ cfg.excluded_files := by simpa using hnf
      have hwf' := WFfs_filter (inclB cfg) hwf
      obtain ⟨f, hf, hfp⟩ := file_name_singleton hwf' hmem hdir'
      have hf_fs : f ∈ fs := List.mem_of_mem_filter hf
      refine ⟨mem_levelNames.mpr ⟨f, hf_fs, by rw [hfp]; rfl⟩, ?_, hnf⟩
      exact not_dir_of_file hwf hf_fs hfp
    · rintro ⟨hmem, hdir, hnf⟩
      have hnf' : n ∉ cfg.excluded_files := by simpa using hnf
      obtain ⟨f, hf, hfp⟩ := file_name_singleton hwf hmem hdir
      have hfincl : inclB cfg f = true := inclB_singleton hfp hnf'
      have hf' : f ∈ fs.filter (inclB cfg) :=
        List.mem_filter.mpr ⟨hf, hfincl⟩
      refine ⟨mem_levelNames.mpr ⟨f, hf', by rw [hfp]; rfl⟩, ?_, hnf⟩
      by_contra hc
      have : isDirName fs n = true :=
        isDirName_filter_mono (by simpa using hc)
      rw [this] at hdir
      exact Bool.noConfusion hdir

theorem dirNames_filter_eq (cfg : Config) (fs : List VFile) :
    (sortNames (levelNames (fs.filter (inclB cfg)))).filter
        (fun n => isDirName (fs.filter (inclB cfg)) n &&
          !decide (n ∈ cfg.excluded_dirs)) =
      ((sortNames (levelNames fs)).filter
        (fun n => isDirName fs n && !decide (n ∈ cfg.excluded_dirs))).filter
          (fun n => isDirName (fs.filter (inclB cfg)) n) := by
  apply eq_of_sorted_mem
  · exact (sortNames_sorted _).filter _
  · exact ((sortNames_sorted _).filter _).filter _
  · exact (sortNames_nodup (levelNames_nodup _)).filter _
  · exact ((sortNames_nodup (levelNames_nodup _)).filter _).filter _
  · intro n
    simp only [List.mem_filter, mem_sortNames, Bool.and_eq_true]
    constructor
    · rintro ⟨hmem, hdir', hnd⟩
      obtain ⟨f, hf, h1, h2⟩ := isDirName_iff.mp hdir'
      have hf_fs : f ∈ fs := List.mem_of_mem_filter hf
      exact ⟨⟨mem_levelNames.mpr ⟨f, hf_fs, h1⟩,
        isDirName_iff.mpr ⟨f, hf_fs, h1, h2⟩, hnd⟩, hdir'⟩
    · rintro ⟨⟨hmem, hdir, hnd⟩, hdir'⟩
      obtain ⟨f, hf, h1, h2⟩ := isDirName_iff.mp hdir'
      exact ⟨mem_levelNames.mpr ⟨f, hf, h1⟩, hdir', hnd⟩

/-- Core exclusion lemma: the walk of a vault equals the walk of its
included files — excluded files and everything below excluded
directories never influence the output. -/
theorem walk_filter (cfg : Config) :
    ∀ (fuel : Nat) (fs : List VFile) (pre : List String), WFfs fs →
      walkVault cfg fuel (fs.filter (inclB cfg)) pre =
        walkVault cfg fuel fs pre := by
  intro fuel
  induction fuel with
  | zero => intros; rfl
  | succ fuel ih =>
      intro fs pre hwf
      rw [walkVault, walkVault]
      refine congrArg₂ (· ++ ·) ?_ ?_
      · rw [fileNames_filter_eq cfg hwf]
        apply List.map_congr_left
        intro n hn
        have hnf : n ∉ cfg.excluded_files := by
          have := (List.mem_filter.mp hn).2
          rw [Bool.and_eq_true] at this
          simpa using this.2
        rw [fileMtime_filter cfg hnf]
      · rw [dirNames_filter_eq cfg fs]
        rw [← List.filter_reverse]
        rw [flatMap_filter_of_empty]
        · apply flatMap_congr
          intro n hn
          have hn' := List.mem_reverse.mp hn
          have hnd : n ∉ cfg.excluded_dirs := by
            have := (List.mem_filter.mp hn').2
            rw [Bool.and_eq_true] at this
            simpa using this.2
          rw [childFS_filter_comm hnd]
          exact ih (childFS fs n) (pre ++ [n]) (WFfs_childFS hwf n)
        · intro n _ hq
          rw [childFS_eq_nil_of_not_dir hq]
          exact walkVault_nil cfg fuel (pre ++ [n])

theorem fsWeight_filter_le (p : VFile → Bool) (fs : List VFile) :
    fsWeight (fs.filter p) ≤ fsWeight fs := by
  induction fs with
  | nil => simp [fsWeight]
  | cons f rest ih =>
      by_cases hp : p f = true
      · simp only [List.filter_cons, hp, if_pos, fsWeight_cons]
        omega
      · have hp' : p f = false := by simpa using hp
        simp only [List.filter_cons, hp', fsWeight_cons]
        simp only [Bool.false_eq_true, if_false]
        omega

/-- With adequate fuel the walk does not depend on the fuel. -/
theorem walkVault_fuel (cfg : Config) :
    ∀ (fuel₁ fuel₂ : Nat) (fs : List VFile) (pre : List String),
      fsWeight fs < fuel₁ → fsWeight fs < fuel₂ →
      walkVault cfg fuel₁ fs pre = walkVault cfg fuel₂ fs pre := by
  intro fuel₁
  induction fuel₁ with
  | zero => intro fuel₂ fs pre h1 _; omega
  | succ fuel₁ ih =>
      intro fuel₂ fs pre h1 h2
      cases fuel₂ with
      | zero => omega
      | succ fuel₂ =>
          rw [walkVault, walkVault]
          refine congrArg₂ (· ++ ·) rfl ?_
          apply flatMap_congr
          intro n hn
          have hdir : isDirName fs n = true := by
            have := (List.mem_filter.mp (List.mem_reverse.mp hn)).2
            rw [Bool.and_eq_true] at this
            exact this.1
          have hlt := fsWeight_childFS_lt hdir
          exact ih fuel₂ (childFS fs n) (pre ++ [n]) (by omega) (by omega)

/-- Inclusion depends only on the path. -/
def pathIncl (cfg : Config) (q : List String) : Bool :=
  q.dropLast.all (fun s => decide (s ∉ cfg.excluded_dirs)) &&
    decide (lastSegD q ∉ cfg.excluded_files)

theorem inclB_eq_pathIncl (cfg : Config) (f : VFile) :
    inclB cfg f = pathIncl cfg f.path := rfl

/-- C6, first part: two vault states that agree on their included files
(same paths with the same mtimes, in the same enumeration order;
excluded files and excluded directories may differ arbitrarily) yield
the same fingerprint input, hence the same fingerprint. -/
theorem tree_hash_input_congr (cfg : Config) {fs₁ fs₂ : List VFile}
    (h1 : WFfs fs₁) (h2 : WFfs fs₂)
    (heq : fs₁.filter (inclB cfg) = fs₂.filter (inclB cfg)) :
    tree_hash_input cfg fs₁ = tree_hash_input cfg fs₂ := by
  have hw1 : walk_vault cfg fs₁ = walk_vault cfg fs₂ := by
    unfold walk_vault
    rw [← walk_filter cfg (fsWeight fs₁ + 1) fs₁ [] h1,
      ← walk_filter cfg (fsWeight fs₂ + 1) fs₂ [] h2, heq]
    apply walkVault_fuel
    · have := fsWeight_filter_le (inclB cfg) fs₂
      rw [← heq] at this
      have h3 := fsWeight_filter_le (inclB cfg) fs₁
      rw [heq] at h3
      omega
    · have := fsWeight_filter_le (inclB cfg) fs₂
      omega
  unfold tree_hash_input
  rw [hw1]

/-- Replace the mtime of every file at relative path `p`. -/
def updMtime (p : List String) (m : String) (fs : List VFile) : List VFile :=
  fs.map (fun f => if f.path = p then { f with mtime := m } else f)

theorem updMtime_paths (p : List String) (m : String) (fs : List VFile) :
    (updMtime p m fs).map (fun f => f.path) = fs.map (fun f => f.path) := by
  unfold updMtime
  rw [List.map_map]
  apply List.map_congr_left
  intro f _
  by_cases hp : f.path = p <;> simp [hp]

theorem WFfs_updMtime {fs : List VFile} (h : WFfs fs) (p : List String)
    (m : String) : WFfs (updMtime p m fs) := by
  obtain ⟨h1, h2, h3⟩ := h
  have hpath : ∀ g ∈ updMtime p m fs, ∃ f ∈ fs, g.path = f.path := by
    intro g hg
    obtain ⟨f, hf, rfl⟩ := List.mem_map.mp hg
    refine ⟨f, hf, ?_⟩
    by_cases hp : f.path = p <;> simp [hp]
  refine ⟨?_, ?_, ?_⟩
  · intro f hf
    obtain ⟨f0, hf0, he⟩ := hpath f hf
    rw [he]
    exact h1 f0 hf0
  · intro f hf g hg hpre
    obtain ⟨f0, hf0, he⟩ := hpath f hf
    obtain ⟨g0, hg0, he'⟩ := hpath g hg
    rw [he, he'] at hpre ⊢
    exact h2 f0 hf0 g0 hg0 hpre
  · rw [updMtime_paths]
    exact h3

theorem filter_updMtime_excluded (cfg : Config) (p : List String)
    (m : String) (hexcl : pathIncl cfg p = false) (fs : List VFile) :
    (updMtime p m fs).filter (inclB cfg) = fs.filter (inclB cfg) := by
  unfold updMtime
  rw [List.filter_map]
  induction fs with
  | nil => rfl
  | cons f rest ih =>
      by_cases hp : f.path = p
      · have hfx : inclB cfg f = false := by
          rw [inclB_eq_pathIncl, hp]
          exact hexcl
        have hfx2 : (inclB cfg ∘ fun f =>
            if f.path = p then { f with mtime := m } else f) f = false := by
          simp only [Function.comp, hp, if_pos]
          rw [inclB_eq_pathIncl]
          exact hexcl
        rw [List.filter_cons, List.filter_cons, hfx, hfx2]
        simpa using ih
      · have hfe : (inclB cfg ∘ fun f =>
            if f.path = p then { f with mtime := m } else f) f = inclB cfg f := by
          simp [Function.comp, hp]
        rw [List.filter_cons, List.filter_cons, hfe]
        by_cases hi : inclB cfg f = true
        · simp [hi, hp, ih]
        · have hi' : inclB cfg f = false := by simpa using hi
          simp [hi', ih]

/-- C6, third part: changing the mtime of an excluded file leaves the
fingerprint input unchanged. -/
theorem tree_hash_input_excluded (cfg : Config) {fs : List VFile}
    (hwf : WFfs fs) {p : List String} (m : String)
    (hexcl : pathIncl cfg p = false) :
    tree_hash_input cfg (updMtime p m fs) = tree_hash_input cfg fs :=
  tree_hash_input_congr cfg (WFfs_updMtime hwf p m) hwf
    (filter_updMtime_excluded cfg p m hexcl fs)

theorem str_append_empty (s : String) : s ++ "" = s := by
  apply String.ext
  rw [String.data_append]
  simp

theorem foldl_append_acc :
    ∀ (Z : List String) (a b : String),
      Z.foldl (· ++ ·) (a ++ b) = a ++ Z.foldl (· ++ ·) b := by
  intro Z
  induction Z with
  | nil => intro a b; rfl
  | cons z Z ih =>
      intro a b
      simp only [List.foldl_cons]
      rw [String.append_assoc, ih]

theorem join_cons (y : String) (Z : List String) :
    String.join (y :: Z) = y ++ String.join Z := by
  show Z.foldl (· ++ ·) ("" ++ y) = y ++ Z.foldl (· ++ ·) ""
  have h1 : ("" ++ y : String) = y ++ "" := by
    rw [str_append_empty]
    apply String.ext
    rw [String.data_append]
    simp
  rw [h1, foldl_append_acc]

theorem join_split :
    ∀ (X : List String) (y : String) (Z : List String),
      String.join (X ++ y :: Z) = String.join X ++ (y ++ String.join Z) := by
  intro X
  induction X with
  | nil =>
      intro y Z
      rw [List.nil_append, join_cons]
      apply String.ext
      rw [String.data_append]
      rfl
  | cons x X ih =>
      intro y Z
      rw [List.cons_append, join_cons, ih, join_cons, String.append_assoc]

theorem upd_path (p : List String) (m' : String) (f : VFile) :
    (if f.path = p then { f with mtime := m' } else f).path = f.path := by
  by_cases hp : f.path = p <;> simp [hp]

theorem levelNames_updMtime (p : List String) (m' : String) (fs : List VFile) :
    levelNames (updMtime p m' fs) = levelNames fs := by
  unfold levelNames updMtime
  rw [List.filterMap_map]
  apply congrArg
  apply List.filterMap_congr
  intro f _
  simp only [Function.comp]
  rw [upd_path]

theorem isDirName_updMtime (p : List String) (m' : String) (fs : List VFile)
    (n : String) : isDirName (updMtime p m' fs) n = isDirName fs n := by
  unfold isDirName updMtime
  rw [List.any_map]
  apply congrArg
  funext f
  simp only [Function.comp]
  rw [upd_path]

theorem list_head_shape {p : List String} {n : String}
    (hp : p.head? = some n) : p = n :: p.tail := by
  cases p with
  | nil => simp at hp
  | cons a t =>
      simp only [List.head?_cons, Option.some.injEq] at hp
      simp [hp]

theorem childFS_updMtime_head {p : List String} {n : String}
    (hp : p.head? = some n) (_hl : 2 ≤ p.length) (m' : String)
    (fs : List VFile) :
    childFS (updMtime p m' fs) n = updMtime p.tail m' (childFS fs n) := by
  unfold childFS updMtime
  rw [List.filter_map, List.map_map, List.map_map]
  rw [List.filter_congr (q := fun f =>
      decide (f.path.head? = some n) && decide (2 ≤ f.path.length))
    (by intro f _; simp only [Function.comp]; rw [upd_path])]
  apply List.map_congr_left
  intro f hf
  obtain ⟨hfeq, htne⟩ := childFS_selected ((List.mem_filter.mp hf).2)
  simp only [Function.comp]
  by_cases hfp : f.path = p
  · have ht : f.path.tail = p.tail := by rw [hfp]
    simp [hfp, ht]
  · have ht : f.path.tail ≠ p.tail := by
      intro hc
      apply hfp
      rw [hfeq, list_head_shape hp, hc]
    simp [hfp, ht]

theorem childFS_updMtime_other {p : List String} {n : String}
    (hp : ¬(p.head? = some n ∧ 2 ≤ p.length)) (m' : String)
    (fs : List VFile) :
    childFS (updMtime p m' fs) n = childFS fs n := by
  unfold childFS updMtime
  rw [List.filter_map, List.map_map]
  rw [List.filter_congr (q := fun f =>
      decide (f.path.head? = some n) && decide (2 ≤ f.path.length))
    (by intro f _; simp only [Function.comp]; rw [upd_path])]
  apply List.map_congr_left
  intro f hf
  have hsel := (List.mem_filter.mp hf).2
  rw [Bool.and_eq_true] at hsel
  have hfp : f.path ≠ p := by
    intro hc
    exact hp ⟨hc ▸ of_decide_eq_true hsel.1, hc ▸ of_decide_eq_true hsel.2⟩
  simp [Function.comp, hfp]

theorem find?_path_updMtime (p : List String) (m' : String)
    (fs : List VFile) (n : String) :
    (updMtime p m' fs).find? (fun f => decide (f.path = [n])) =
      (fs.find? (fun f => decide (f.path = [n]))).map
        (fun f => if f.path = p then { f with mtime := m' } else f) := by
  unfold updMtime
  rw [List.find?_map]
  have hpred : ((fun f => decide (f.path = [n])) ∘ fun f =>
      if f.path = p then { f with mtime := m' } else f) =
      (fun f : VFile => decide (f.path = [n])) := by
    funext f
    simp only [Function.comp]
    rw [upd_path]
  rw [hpred]

theorem fileMtime_updMtime_ne {p : List String} {n : String}
    (hne : p ≠ [n]) (m' : String) (fs : List VFile) :
    fileMtime (updMtime p m' fs) n = fileMtime fs n := by
  unfold fileMtime
  rw [find?_path_updMtime]
  cases hfind : fs.find? (fun f => decide (f.path = [n])) with
  | none => rfl
  | some f =>
      have hfp : f.path = [n] := by
        have h := List.find?_some hfind
        simpa using h
      have : f.path ≠ p := by rw [hfp]; exact fun h => hne h.symm
      simp [this]

theorem fileMtime_updMtime_eq {n : String} {fs : List VFile}
    (hex : ∃ f ∈ fs, f.path = [n]) (m' : String) :
    fileMtime (updMtime [n] m' fs) n = m' := by
  unfold fileMtime
  rw [find?_path_updMtime]
  cases hfind : fs.find? (fun f => decide (f.path = [n])) with
  | none =>
      obtain ⟨f, hf, hfp⟩ := hex
      have := List.find?_eq_none.mp hfind f hf
      rw [hfp] at this
      simp at this
  | some f =>
      have hfp : f.path = [n] := by
        have h := List.find?_some hfind
        simpa using h
      simp [hfp]

theorem exists_singleton_file {fs : List VFile} {n : String}
    (hmem : n ∈ levelNames fs) (hdir : isDirName fs n = false) :
    ∃ f ∈ fs, f.path = [n] := by
  obtain ⟨f, hf, hhead⟩ := mem_levelNames.mp hmem
  refine ⟨f, hf, ?_⟩
  have hfeq := list_head_shape hhead
  cases ht : f.path.tail with
  | nil => rw [hfeq, ht]
  | cons b r =>
      exfalso
      have : isDirName fs n = true :=
        isDirName_iff.mpr ⟨f, hf, hhead, by rw [hfeq, ht]; simp⟩
      rw [this] at hdir
      exact Bool.noConfusion hdir

/-- Every output of a walk at `pre` lies strictly below `pre`. -/
theorem walkVault_shape (cfg : Config) :
    ∀ (fuel : Nat) (fs : List VFile) (pre : List String)
      (x : List String × String), x ∈ walkVault cfg fuel fs pre →
      ∃ n suf, x.1 = pre ++ n :: suf := by
  intro fuel
  induction fuel with
  | zero => intro fs pre x hx; simp [walkVault] at hx
  | succ fuel ih =>
      intro fs pre x hx
      rw [walkVault] at hx
      rcases List.mem_append.mp hx with hx | hx
      · obtain ⟨n, -, rfl⟩ := List.mem_map.mp hx
        exact ⟨n, [], rfl⟩
      · obtain ⟨n, -, hx'⟩ := List.mem_flatMap.mp hx
        obtain ⟨n', suf, he⟩ := ih _ _ _ hx'
        refine ⟨n, n' :: suf, ?_⟩
        rw [he]
        simp

/-- Changing the mtimes of the files at relative path `p` changes the
walk output pointwise at the entries for `p` and nowhere else. -/
theorem walk_updMtime (cfg : Config) (m' : String) :
    ∀ (fuel : Nat) (fs : List VFile) (pre p : List String),
      walkVault cfg fuel (updMtime p m' fs) pre =
        (walkVault cfg fuel fs pre).map
          (fun rm => if rm.1 = pre ++ p then (rm.1, m') else rm) := by
  intro fuel
  induction fuel with
  | zero => intros; rfl
  | succ fuel ih =>
      intro fs pre p
      rw [walkVault, walkVault, List.map_append]
      refine congrArg₂ (· ++ ·) ?_ ?_
      · rw [List.map_map]
        have hnames : (sortNames (levelNames (updMtime p m' fs))).filter
            (fun n => !isDirName (updMtime p m' fs) n &&
              !decide (n ∈ cfg.excluded_files)) =
            (sortNames (levelNames fs)).filter
              (fun n => !isDirName fs n && !decide (n ∈ cfg.excluded_files)) := by
          rw [levelNames_updMtime]
          apply List.filter_congr
          intro n _
          rw [isDirName_updMtime]
        rw [hnames]
        apply List.map_congr_left
        intro n hn
        have hmem : n ∈ levelNames fs :=
          mem_sortNames.mp (List.mem_of_mem_filter hn)
        have hcond := (List.mem_filter.mp hn).2
        rw [Bool.and_eq_true] at hcond
        have hdir : isDirName fs n = false := by simpa using hcond.1
        simp only [Function.comp]
        by_cases hpn : p = [n]
        · have hfire : pre ++ [n] = pre ++ p := by rw [hpn]
          rw [hpn, fileMtime_updMtime_eq (exists_singleton_file hmem hdir) m']
          simp
        · have hnofire : ¬ (pre ++ [n] = pre ++ p) := by
            intro hc
            exact hpn (List.append_cancel_left hc).symm
          rw [fileMtime_updMtime_ne hpn m' fs]
          simp [hnofire]
      · rw [List.map_flatMap]
        have hnames : (sortNames (levelNames (updMtime p m' fs))).filter
            (fun n => isDirName (updMtime p m' fs) n &&
              !decide (n ∈ cfg.excluded_dirs)) =
            (sortNames (levelNames fs)).filter
              (fun n => isDirName fs n && !decide (n ∈ cfg.excluded_dirs)) := by
          rw [levelNames_updMtime]
          apply List.filter_congr
          intro n _
          rw [isDirName_updMtime]
        rw [hnames]
        apply flatMap_congr
        intro n _
        by_cases hp : p.head? = some n ∧ 2 ≤ p.length
        · rw [childFS_updMtime_head hp.1 hp.2 m' fs, ih]
          have : (pre ++ [n]) ++ p.tail = pre ++ p := by
            conv_rhs => rw [list_head_shape hp.1]
            simp
          rw [this]
        · rw [childFS_updMtime_other hp m' fs]
          symm
          conv_rhs => rw [← List.map_id (walkVault cfg fuel (childFS fs n) (pre ++ [n]))]
          apply List.map_congr_left
          intro x hx
          obtain ⟨n', suf, he⟩ := walkVault_shape cfg fuel _ _ x hx
          have : ¬ (x.1 = pre ++ p) := by
            rw [he]
            intro hc
            have hc' : pre ++ (n :: n' :: suf) = pre ++ p := by
              simpa using hc
            have h2 := List.append_cancel_left hc'
            apply hp
            rw [← h2]
            exact ⟨rfl, by simp⟩
          simp [this]

/-- The output paths of a walk are pairwise distinct. -/
theorem walkVault_fst_nodup (cfg : Config) :
    ∀ (fuel : Nat) (fs : List VFile) (pre : List String),
      ((walkVault cfg fuel fs pre).map Prod.fst).Nodup := by
  intro fuel
  induction fuel with
  | zero => intro fs pre; simp [walkVault]
  | succ fuel ih =>
      intro fs pre
      rw [walkVault, List.map_append]
      apply List.Nodup.append
      · rw [List.map_map]
        refine List.Nodup.map_on ?_
          ((sortNames_nodup (levelNames_nodup fs)).filter _)
        intro a _ b _ hab
        simp only [Function.comp] at hab
        have := List.append_cancel_left hab
        exact (List.cons.injEq .. ▸ this).1
      · rw [List.map_flatMap]
        have hnd : ((sortNames (levelNames fs)).filter
            (fun n => isDirName fs n && !decide (n ∈ cfg.excluded_dirs))).reverse.Nodup :=
          List.nodup_reverse.mpr
            ((sortNames_nodup (levelNames_nodup fs)).filter _)
        revert hnd
        generalize ((sortNames (levelNames fs)).filter
            (fun n => isDirName fs n && !decide (n ∈ cfg.excluded_dirs))).reverse = ds
        intro hnd
        induction ds with
        | nil => simp
        | cons d ds ihds =>
            rw [List.flatMap_cons]
            apply List.Nodup.append
            · exact ih _ _
            · exact ihds (List.Nodup.of_cons hnd)
            · intro q hq1 hq2
              obtain ⟨y, hy, rfl⟩ := List.mem_map.mp hq1
              obtain ⟨n1, s1, he1⟩ := walkVault_shape cfg fuel _ _ y hy
              obtain ⟨d2, hd2, hq2f⟩ := List.mem_flatMap.mp hq2
              obtain ⟨y2, hy2, heq2⟩ := List.mem_map.mp hq2f
              obtain ⟨n2, s2, he2⟩ := walkVault_shape cfg fuel _ _ y2 hy2
              have hcomb : pre ++ d :: n1 :: s1 = pre ++ d2 :: n2 :: s2 := by
                have h1 : y.1 = pre ++ d :: n1 :: s1 := by
                  rw [he1]; simp
                have h2 : y2.1 = pre ++ d2 :: n2 :: s2 := by
                  rw [he2]; simp
                rw [← h1, ← h2, heq2]
              have hd : d = d2 :=
                (List.cons.injEq .. ▸ List.append_cancel_left hcomb).1
              rw [List.nodup_cons] at hnd
              exact hnd.1 (hd ▸ hd2)
      · intro q hq1 hq2
        obtain ⟨y, hy, rfl⟩ := List.mem_map.mp hq1
        obtain ⟨n, hn, hyn⟩ := List.mem_map.mp hy
        obtain ⟨y2, hy2, heq2⟩ := List.mem_map.mp hq2
        obtain ⟨d2, hd2, hy2f⟩ := List.mem_flatMap.mp hy2
        obtain ⟨n2, s2, he2⟩ := walkVault_shape cfg fuel _ _ y2 hy2f
        have h1 : y.1 = pre ++ [n] := by rw [← hyn]
        have h2 : y2.1 = pre ++ d2 :: n2 :: s2 := by rw [he2]; simp
        have hcomb : pre ++ [n] = pre ++ d2 :: n2 :: s2 := by
          rw [← h1, ← h2, heq2]
        have := List.append_cancel_left hcomb
        exact absurd (List.cons.injEq .. ▸ this).2 (by simp)

/-- Every included file of a well-formed vault appears in the walk with
its own mtime. -/
theorem walk_complete (cfg : Config) :
    ∀ (fuel : Nat) (fs : List VFile) (pre : List String) (f : VFile),
      WFfs fs → fsWeight fs < fuel → f ∈ fs → inclB cfg f = true →
      (pre ++ f.path, f.mtime) ∈ walkVault cfg fuel fs pre := by
  intro fuel
  induction fuel with
  | zero => intro fs pre f _ h _ _; omega
  | succ fuel ih =>
      intro fs pre f hwf hfuel hf hincl
      rw [walkVault]
      unfold inclB at hincl
      rw [Bool.and_eq_true] at hincl
      cases hfp : f.path with
      | nil => exact absurd hfp (hwf.1 f hf)
      | cons n t =>
          cases t with
          | nil =>
              apply List.mem_append_left
              have hmem : n ∈ levelNames fs :=
                mem_levelNames.mpr ⟨f, hf, by rw [hfp]; rfl⟩
              have hdir : isDirName fs n = false := not_dir_of_file hwf hf hfp
              have hnf : n ∉ cfg.excluded_files := by
                have h2 := of_decide_eq_true hincl.2
                rw [hfp] at h2
                simpa [lastSegD] using h2
              have hfind : fileMtime fs n = f.mtime := by
                have hsome : (fs.find? (fun g => decide (g.path = [n]))).isSome := by
                  rw [List.find?_isSome]
                  exact ⟨f, hf, by simp [hfp]⟩
                obtain ⟨g, hg⟩ := Option.isSome_iff_exists.mp hsome
                have hgp : g.path = [n] := by
                  have := List.find?_some hg
                  simpa using this
                have hgmem := List.mem_of_find?_eq_some hg
                have : g = f := List.inj_on_of_nodup_map hwf.2.2 hgmem hf
                  (by rw [hgp, hfp])
                unfold fileMtime
                rw [hg, this]
                rfl
              refine List.mem_map.mpr ⟨n, ?_, ?_⟩
              · rw [List.mem_filter]
                exact ⟨mem_sortNames.mpr hmem, by simp [hdir, hnf]⟩
              · rw [hfind]
          | cons b r =>
              apply List.mem_append_right
              have hdirn : isDirName fs n = true :=
                isDirName_iff.mpr ⟨f, hf, by rw [hfp]; rfl, by rw [hfp]; simp⟩
              have hnd : n ∉ cfg.excluded_dirs := by
                have hall := hincl.1
                rw [hfp, List.dropLast_cons₂, List.all_cons, Bool.and_eq_true] at hall
                simpa using hall.1
              refine List.mem_flatMap.mpr ⟨n, ?_, ?_⟩
              · rw [List.mem_reverse, List.mem_filter]
                exact ⟨mem_sortNames.mpr (mem_levelNames.mpr
                  ⟨f, hf, by rw [hfp]; rfl⟩), by simp [hdirn, hnd]⟩
              · have hf' : ({ f with path := f.path.tail } : VFile) ∈ childFS fs n :=
                  List.mem_map.mpr ⟨f, List.mem_filter.mpr ⟨hf, by simp [hfp]⟩, rfl⟩
                have hw : fsWeight (childFS fs n) < fuel := by
                  have := fsWeight_childFS_lt hdirn
                  omega
                have hincl' : inclB cfg { f with path := f.path.tail } = true := by
                  unfold inclB
                  rw [Bool.and_eq_true]
                  constructor
                  · have hall := hincl.1
                    rw [hfp, List.dropLast_cons₂, List.all_cons,
                      Bool.and_eq_true] at hall
                    have := hall.2
                    simp only [hfp, List.tail_cons]
                    exact this
                  · have h2 := hincl.2
                    rw [hfp, lastSegD_cons_ne (by simp)] at h2
                    simp only [hfp, List.tail_cons]
                    exact h2
                have hrec := ih (childFS fs n) (pre ++ [n]) _
                  (WFfs_childFS hwf n) hw hf' hincl'
                have hpath : (pre ++ [n]) ++
                    ({ f with path := f.path.tail } : VFile).path = pre ++ f.path := by
                  rw [hfp]
                  simp
                rw [hpath] at hrec
                rw [hfp] at hrec
                exact hrec

theorem fsWeight_updMtime (p : List String) (m' : String) (fs : List VFile) :
    fsWeight (updMtime p m' fs) = fsWeight fs := by
  have h : ∀ (l : List VFile), fsWeight l =
      ((l.map (fun f => f.path)).map List.length).sum := by
    intro l
    unfold fsWeight
    rw [List.map_map]
    rfl
  rw [h, h, updMtime_paths]

/-- C6, second part: changing the mtime of a single included file of a
well-formed vault changes the fingerprint input. -/
theorem tree_hash_input_changes (cfg : Config) {fs : List VFile}
    (hwf : WFfs fs) {f : VFile} (hf : f ∈ fs) (hincl : inclB cfg f = true)
    {m' : String} (hne : m' ≠ f.mtime) :
    tree_hash_input cfg (updMtime f.path m' fs) ≠ tree_hash_input cfg fs := by
  have hw : walk_vault cfg (updMtime f.path m' fs) =
      (walk_vault cfg fs).map
        (fun rm => if rm.1 = f.path then (rm.1, m') else rm) := by
    unfold walk_vault
    rw [fsWeight_updMtime, walk_updMtime cfg m' (fsWeight fs + 1) fs [] f.path]
    simp only [List.nil_append]
  have hmem : (f.path, f.mtime) ∈ walk_vault cfg fs := by
    have := walk_complete cfg (fsWeight fs + 1) fs [] f hwf (by omega) hf hincl
    simpa using this
  obtain ⟨A, B, hAB⟩ := List.append_of_mem hmem
  have hnodup : ((walk_vault cfg fs).map Prod.fst).Nodup :=
    walkVault_fst_nodup cfg (fsWeight fs + 1) fs []
  rw [hAB, List.map_append, List.map_cons] at hnodup
  have hdisj := List.nodup_append.mp hnodup
  have hpA : f.path ∉ A.map Prod.fst := by
    intro hc
    exact hdisj.2.2 hc (by simp)
  have hpB : f.path ∉ B.map Prod.fst := by
    have := hdisj.2.1
    rw [List.nodup_cons] at this
    exact this.1
  have hcondA : ∀ x ∈ A,
      (fun rm : List String × String =>
        if rm.1 = f.path then (rm.1, m') else rm) x = id x := by
    intro x hx
    have hxne : x.1 ≠ f.path := by
      intro hc
      exact hpA (hc ▸ List.mem_map.mpr ⟨x, hx, rfl⟩)
    simp [hxne]
  have hcondB : ∀ x ∈ B,
      (fun rm : List String × String =>
        if rm.1 = f.path then (rm.1, m') else rm) x = id x := by
    intro x hx
    have hxne : x.1 ≠ f.path := by
      intro hc
      exact hpB (hc ▸ List.mem_map.mpr ⟨x, hx, rfl⟩)
    simp [hxne]
  have hw' : walk_vault cfg (updMtime f.path m' fs) =
      A ++ (f.path, m') :: B := by
    rw [hw, hAB, List.map_append, List.map_cons]
    rw [List.map_congr_left hcondA, List.map_congr_left hcondB, List.map_id]
    simp
  unfold tree_hash_input
  rw [hw', hAB]
  intro hc
  rw [List.map_append, List.map_append, List.map_cons, List.map_cons,
    join_split, join_split] at hc
  have hd := congrArg String.data hc
  simp only [String.data_append, List.append_assoc] at hd
  have h1 := List.append_cancel_left hd
  have h2 := List.append_cancel_left h1
  have h3 := List.append_cancel_left h2
  have h4 := List.append_cancel_right h3
  exact hne (String.ext h4)

/-- C6: over well-formed vault states, (i) if the two states agree on
their included files (same files, same mtimes — nothing added, removed
or re-timed), the fingerprint input strings agree; (ii) changing the
mtime of a single included file changes the fingerprint input; (iii)
changing the mtime of an excluded file (excluded file name, or under an
excluded directory) leaves the fingerprint input unchanged.  Fingerprint
equality is decided by the md5 input string, the digest being a
deterministic function of it. -/
theorem C6_fingerprint_sensitivity (cfg : Config)
    (fs₁ fs₂ fs : List VFile) (f : VFile) (p : List String) (m m' : String)
    (h1 : WFfs fs₁) (h2 : WFfs fs₂) (hwf : WFfs fs) :
    (fs₁.filter (inclB cfg) = fs₂.filter (inclB cfg) →
      tree_hash_input cfg fs₁ = tree_hash_input cfg fs₂) ∧
    (f ∈ fs → inclB cfg f = true → m' ≠ f.mtime →
      tree_hash_input cfg (updMtime f.path m' fs) ≠ tree_hash_input cfg fs) ∧
    (pathIncl cfg p = false →
      tree_hash_input cfg (updMtime p m fs) = tree_hash_input cfg fs) := by
  refine ⟨?_, ?_, ?_⟩
  · intro heq
    exact tree_hash_input_congr cfg h1 h2 heq
  · intro hf hincl hne
    exact tree_hash_input_changes cfg hwf hf hincl hne
  · intro hexcl
    exact tree_hash_input_excluded cfg hwf m hexcl

def fsC6a : List VFile :=
  [⟨["a.md"], "1", "x"⟩, ⟨["server.py"], "2", "y"⟩]

def fsC6b : List VFile :=
  [⟨["a.md"], "1", "x"⟩, ⟨["server.py"], "7", "y"⟩]

theorem C6_witness :
    tree_hash_input defaultConfig fsC6a = tree_hash_input defaultConfig fsC6b ∧
    tree_hash_input defaultConfig
        (updMtime ["a.md"] "9" fsC6a) ≠ tree_hash_input defaultConfig fsC6a ∧
    tree_hash_input defaultConfig
        (updMtime ["server.py"] "9" fsC6a) = tree_hash_input defaultConfig fsC6a := by
  obtain ⟨hi, hii, hiii⟩ :=
    C6_fingerprint_sensitivity defaultConfig fsC6a fsC6b fsC6a
      ⟨["a.md"], "1", "x"⟩ ["server.py"] "9" "9"
      (by refine ⟨by decide, by decide, by decide⟩)
      (by refine ⟨by decide, by decide, by decide⟩)
      (by refine ⟨by decide, by decide, by decide⟩)
  exact ⟨hi (by decide), hii (by decide) (by decide) (by decide),
    hiii (by decide)⟩

/-! ### Graph builders (`api_graph`, src/server.py lines 457-543, and
`collect_files` / `generate_graph`, src/build_static.py).

The two Python graph builders are verbatim duplicates of one another
except for the file selection: `api_graph` iterates
`sorted(VAULT.rglob("*"))` with inline exclusion checks, while
`generate_graph` receives `collect_files()`.  The shared per-file body,
wikilink-target resolution, edge de-duplication and link counting are
therefore embedded once below and used by both top-level definitions.

Modelling notes, faithful to a real symlink-free vault: the iteration
order of `sorted(...)` compares path strings (CPython compares the
normalised string form of paths); the OS enumeration order of the
unsorted `VAULT.rglob(tname)` fallback is unspecified, and the model
fixes the same sorted order; `(VAULT / target).exists()` is evaluated
with the vault as the whole filesystem, so an absolute target or one
stepping through `..` resolves outside the model and does not exist;
glob metacharacters in wikilink targets are out of scope (`rglob` is
modelled as an exact name match). -/

/-- Whether `s` is a prefix of `t` (Python's `t.startswith(s)`). -/
def strStarts (s t : String) : Bool := s.data.isPrefixOf t.data

/-- Path-string order of `sorted(VAULT.rglob("*"))` restricted to files
(directories are dropped by the `is_file()` check). -/
def pathLe (f g : VFile) : Prop := relStr f.path ≤ relStr g.path

instance : DecidableRel pathLe :=
  fun f g => inferInstanceAs (Decidable (relStr f.path ≤ relStr g.path))

/-- The vault's files in `sorted(VAULT.rglob("*"))` order. -/
def sortFiles (fs : List VFile) : List VFile := List.insertionSort pathLe fs

/-- The inline exclusion filter of `api_graph`: no path component in the
excluded-directory set (`rel.parts` includes the file name), and a file
name outside the excluded-file set. -/
def graphIncl (cfg : Config) (p : List String) : Bool :=
  p.all (fun s => decide (s ∉ cfg.excluded_dirs)) &&
    decide (lastSegD p ∉ cfg.excluded_files)

/-- Translation of `collect_files` (src/build_static.py): the same two
exclusion checks as `api_graph`, then the extra string-prefix check
`str(rel).startswith("_site")` and the extra name check
`p.name == "build_static.py"`. -/
def collect_files (cfg : Config) (fs : List VFile) : List (List String) :=
  ((sortFiles fs).filter (fun f =>
    graphIncl cfg f.path &&
      !strStarts "_site" (relStr f.path) &&
      !decide (lastSegD f.path = "build_static.py"))).map (fun f => f.path)

/-- A graph node before link counting (`{"id","name","path","group"}`). -/
structure GNode where
  id : String
  name : String
  path : String
  group : String
deriving Repr, DecidableEq

/-- A graph node of the final output, with its `links` count. -/
structure GNodeL where
  id : String
  name : String
  path : String
  group : String
  links : Nat
deriving Repr, DecidableEq

/-- A graph edge (`{"source","target","kind"}`). -/
structure GEdge where
  source : String
  target : String
  kind : String
deriving Repr, DecidableEq

/-- State of the first pass: the insertion-ordered `nodes` dict, the
`folders_seen` set, and the `edges` list. -/
structure GState where
  nodes : List GNode
  seen : List String
  edges : List GEdge
deriving Repr, DecidableEq

/-- Assignment `nodes[n.id] = n` on an insertion-ordered dict: replace in
place if the key is present, else append. -/
def insertNode (nodes : List GNode) (n : GNode) : List GNode :=
  if nodes.any (fun m => m.id = n.id) then
    nodes.map (fun m => if m.id = n.id then n else m)
  else nodes ++ [n]

/-- Group classification of a lower-cased suffix. -/
def groupOf (ext : String) : String :=
  if ext = ".md" then "note"
  else if ext = ".pdf" then "pdf"
  else if ext ∈ imageExts then "image"
  else "other"

/-- The node recorded for a file: id and path are `str(rel)`, the display
name is the stem for `.md` files and the file name otherwise. -/
def fileNode (p : List String) : GNode :=
  { id := relStr p,
    name := if strLower (pySfx (lastSegD p)) = ".md" then pyStem (lastSegD p)
      else lastSegD p,
    path := relStr p,
    group := groupOf (strLower (pySfx (lastSegD p))) }

/-- The `while str(parent) != "."` ancestor loop: record the folder node
on first sight, always append the folder edge to the current child, then
move up.  Fuelled structurally; the initial path length suffices. -/
def walkUp : Nat → List String → String → GState → GState
  | 0, _, _, st => st
  | _ + 1, [], _, st => st
  | fuel + 1, a :: rest, child, st =>
      if relStr (a :: rest) ∈ st.seen then
        walkUp fuel (a :: rest).dropLast (relStr (a :: rest))
          { st with edges :=
              st.edges ++ [⟨relStr (a :: rest), child, "folder"⟩] }
      else
        walkUp fuel (a :: rest).dropLast (relStr (a :: rest))
          { nodes := insertNode st.nodes
              ⟨relStr (a :: rest), lastSegD (a :: rest), relStr (a :: rest),
                "folder"⟩,
            seen := relStr (a :: rest) :: st.seen,
            edges := st.edges ++ [⟨relStr (a :: rest), child, "folder"⟩] }

/-- Per-file body of the first pass: record the file node, then walk the
ancestor chain. -/
def procFile (st : GState) (p : List String) : GState :=
  walkUp p.length p.dropLast (relStr p)
    { st with nodes := insertNode st.nodes (fileNode p) }

/-- First pass of `api_graph`: sorted files, inline exclusion filter. -/
def serverPhase1 (cfg : Config) (fs : List VFile) : GState :=
  (sortFiles fs).foldl
    (fun st f => if graphIncl cfg f.path then procFile st f.path else st)
    ⟨[], [], []⟩

/-- First pass of `generate_graph`: the caller-supplied file list, no
filter. -/
def staticPhase1 (files : List (List String)) : GState :=
  files.foldl procFile ⟨[], [], []⟩

/-- Raw segments of a wikilink target under `VAULT / target`: `none` for
an absolute target or one stepping through `..` (outside the modelled
vault), otherwise the components with empty and `.` parts collapsed, as
`pathlib` does. -/
def targSegs (target : String) : Option (List String) :=
  if target.data.head? = some '/' ∨ ".." ∈ pathSegs target then none
  else some ((pathSegs target).filter (fun s => s ≠ "" && s ≠ "."))

/-- `(VAULT / t).exists()`: the vault root itself, a file, or a directory
(a proper prefix of some file's path). -/
def existsRel (fs : List VFile) (t : String) : Bool :=
  match targSegs t with
  | none => false
  | some segs =>
      segs.isEmpty || fs.any (fun f => f.path = segs) ||
        fs.any (fun f => segs.isPrefixOf f.path && segs.length < f.path.length)

/-- Non-empty proper prefixes of a path — the directories it sits in. -/
def properPrefixes : List String → List (List String)
  | [] => []
  | [_] => []
  | a :: b :: rest => [a] :: (properPrefixes (b :: rest)).map (fun q => a :: q)

/-- Every path `VAULT.rglob` can yield — files and directories — in the
model's canonical sorted order. -/
def allPaths (fs : List VFile) : List (List String) :=
  List.insertionSort (fun p q => relStr p ≤ relStr q)
    (fs.map (fun f => f.path) ++
      (fs.flatMap (fun f => properPrefixes f.path)).dedup)

/-- The `for candidate in VAULT.rglob(tname)` fallback: the first
candidate with final name `tname` whose parts avoid the excluded
directories, as `str(crel)`. -/
def rglobFirst (cfg : Config) (fs : List VFile) (tname : String) :
    Option String :=
  (((allPaths fs).filter (fun q => lastSegD q = tname)).find?
    (fun q => q.all (fun s => decide (s ∉ cfg.excluded_dirs)))).map relStr

/-- Resolution of a wikilink target: the target itself if it exists, else
with `.md` appended, else the rglob-by-name fallback on `Path(target).name`
(with `.md` appended when that name has no suffix). -/
def resolveTarget (cfg : Config) (fs : List VFile) (target : String) :
    Option String :=
  if existsRel fs target then some target
  else if existsRel fs (target ++ ".md") then some (target ++ ".md")
  else rglobFirst cfg fs
    (if pySfx (pyName target) = "" then pyName target ++ ".md" else pyName target)

/-- Link edges contributed by one node of the second pass: only `note`
nodes are scanned; the text is read back through the node's id; each
wikilink target that resolves to a truthy string which is a node key and
is not the containing file yields a `link` edge. -/
def linkEdges (cfg : Config) (fs : List VFile) (nodes : List GNode)
    (nd : GNode) : List GEdge :=
  if nd.group = "note" then
    match fs.find? (fun f => relStr f.path = nd.id) with
    | some f =>
        (findWikilinks f.content).filterMap (fun target =>
          match resolveTarget cfg fs target with
          | some tp =>
              if tp ≠ "" ∧ tp ∈ nodes.map (fun m => m.id) ∧ tp ≠ nd.id then
                some ⟨nd.id, tp, "link"⟩
              else none
          | none => none)
    | none => []
  else []

/-- Folder edges of the first pass followed by the link edges of the
second, before de-duplication. -/
def rawEdgesFrom (cfg : Config) (fs : List VFile) (st : GState) :
    List GEdge :=
  st.edges ++ st.nodes.flatMap (linkEdges cfg fs st.nodes)

/-- The `(source, target)` key of an edge. -/
def edgeKey (e : GEdge) : String × String := (e.source, e.target)

/-- The de-duplication loop over `edge_set`: keep an edge iff its key has
not been seen. -/
def dedupEdges (seen : List (String × String)) : List GEdge → List GEdge
  | [] => []
  | e :: es =>
      if (e.source, e.target) ∈ seen then dedupEdges seen es
      else e :: dedupEdges ((e.source, e.target) :: seen) es

/-- Final value of the `link_counts` increment loop for a node id: the
number of unique edges with that source plus the number with that
target. -/
def linksOf (edges : List GEdge) (i : String) : Nat :=
  (edges.filter (fun e => e.source = i)).length +
    (edges.filter (fun e => e.target = i)).length

/-- Attach the link counts to the nodes. -/
def withLinks (nodes : List GNode) (edges : List GEdge) : List GNodeL :=
  nodes.map (fun n => ⟨n.id, n.name, n.path, n.group, linksOf edges n.id⟩)

/-- Raw edge list of the live builder. -/
def serverRawEdges (cfg : Config) (fs : List VFile) : List GEdge :=
  rawEdgesFrom cfg fs (serverPhase1 cfg fs)

/-- Translation of `api_graph` (src/server.py): node list in dict order
with link counts, and the de-duplicated edge list. -/
def api_graph (cfg : Config) (fs : List VFile) : List GNodeL × List GEdge :=
  (withLinks (serverPhase1 cfg fs).nodes (dedupEdges [] (serverRawEdges cfg fs)),
    dedupEdges [] (serverRawEdges cfg fs))

/-- Raw edge list of the static builder over a caller-supplied file
list. -/
def staticRawEdges (cfg : Config) (fs : List VFile)
    (files : List (List String)) : List GEdge :=
  rawEdgesFrom cfg fs (staticPhase1 files)

/-- Translation of `generate_graph` (src/build_static.py): identical body
over the supplied file list. -/
def generate_graph (cfg : Config) (fs : List VFile)
    (files : List (List String)) : List GNodeL × List GEdge :=
  (withLinks (staticPhase1 files).nodes
      (dedupEdges [] (staticRawEdges cfg fs files)),
    dedupEdges [] (staticRawEdges cfg fs files))

/-! ### C4: edge de-duplication and absence of self-edges -/

theorem dedupEdges_sublist :
    ∀ (l : List GEdge) (seen : List (String × String)),
      (dedupEdges seen l).Sublist l := by
  intro l
  induction l with
  | nil => intro seen; simp [dedupEdges]
  | cons e es ih =>
      intro seen
      rw [dedupEdges]
      split
      · exact (ih seen).cons e
      · exact (ih _).cons₂ e

theorem dedupEdges_keys :
    ∀ (l : List GEdge) (seen : List (String × String)),
      ((dedupEdges seen l).map edgeKey).Nodup ∧
        ∀ e ∈ dedupEdges seen l, edgeKey e ∉ seen := by
  intro l
  induction l with
  | nil =>
      intro seen
      refine ⟨by simp [dedupEdges], ?_⟩
      intro e he
      simp [dedupEdges] at he
  | cons e es ih =>
      intro seen
      rw [dedupEdges]
      split
      · exact ⟨(ih seen).1, (ih seen).2⟩
      · rename_i hout
        have ihs := ih ((e.source, e.target) :: seen)
        refine ⟨?_, ?_⟩
        · rw [List.map_cons, List.nodup_cons]
          refine ⟨?_, ihs.1⟩
          intro hc
          obtain ⟨e', he', hk⟩ := List.mem_map.mp hc
          apply ihs.2 e' he'
          rw [hk]
          exact List.mem_cons_self _ _
        · intro e' he'
          rcases List.mem_cons.mp he' with h1 | h2
          · subst h1
            exact hout
          · intro hc
            exact ihs.2 e' h2 (List.mem_cons_of_mem _ hc)

theorem dedupEdges_complete :
    ∀ (l : List GEdge) (seen : List (String × String)),
      ∀ e ∈ l, edgeKey e ∈ seen ∨ edgeKey e ∈ (dedupEdges seen l).map edgeKey := by
  intro l
  induction l with
  | nil =>
      intro seen e he
      exact absurd he (by simp)
  | cons e es ih =>
      intro seen e' he'
      rw [dedupEdges]
      split
      · rename_i hin
        rcases List.mem_cons.mp he' with h1 | h2
        · subst h1
          exact Or.inl hin
        · exact ih seen e' h2
      · rcases List.mem_cons.mp he' with h1 | h2
        · subst h1
          exact Or.inr (by rw [List.map_cons]; exact List.mem_cons_self _ _)
        · rcases ih ((e.source, e.target) :: seen) e' h2 with h3 | h3
          · rcases List.mem_cons.mp h3 with h4 | h5
            · refine Or.inr ?_
              rw [List.map_cons, h4]
              exact List.mem_cons_self _ _
            · exact Or.inl h5
          · exact Or.inr (by rw [List.map_cons]; exact List.mem_cons_of_mem _ h3)

theorem relStr_snoc (p : List String) (x : String) (h : p ≠ []) :
    relStr (p ++ [x]) = relStr p ++ "/" ++ x := by
  induction p with
  | nil => exact absurd rfl h
  | cons a rest ih =>
      cases rest with
      | nil => rfl
      | cons b r =>
          show a ++ "/" ++ relStr ((b :: r) ++ [x]) =
            (a ++ "/" ++ relStr (b :: r)) ++ "/" ++ x
          rw [ih (by simp)]
          apply String.ext
          simp [String.data_append, List.append_assoc]

theorem relStr_ne_snoc (p : List String) (x : String) (h : p ≠ []) :
    relStr p ≠ relStr (p ++ [x]) := by
  intro hc
  have hd := congrArg String.data hc
  rw [relStr_snoc p x h] at hd
  simp only [String.data_append, List.append_assoc] at hd
  have h2 : (relStr p).data ++ ([] : List Char) =
      (relStr p).data ++ (("/" : String).data ++ x.data) := by
    simp only [List.append_nil]
    exact hd
  have h3 := List.append_cancel_left h2
  have h5 := (List.append_eq_nil.mp h3.symm).1
  exact absurd h5 (by decide)

theorem walkUp_edges_ne :
    ∀ (fuel : Nat) (parent : List String) (child : String) (st : GState),
      (∃ x, child = relStr (parent ++ [x])) →
      (∀ e ∈ st.edges, e.source ≠ e.target) →
      ∀ e ∈ (walkUp fuel parent child st).edges, e.source ≠ e.target := by
  intro fuel
  induction fuel with
  | zero => intro parent child st _ h e he; exact h e he
  | succ fuel ih =>
      intro parent child st hx h e he
      cases parent with
      | nil => exact h e (by simpa [walkUp] using he)
      | cons a rest =>
          obtain ⟨x, hx⟩ := hx
          have hrw : (a :: rest).dropLast ++ [(a :: rest).getLast (by simp)] =
              a :: rest := List.dropLast_append_getLast (by simp)
          have hne : ∀ e' ∈ st.edges ++ [⟨relStr (a :: rest), child, "folder"⟩],
              e'.source ≠ e'.target := by
            intro e' he'
            rcases List.mem_append.mp he' with h1 | h2
            · exact h e' h1
            · have : e' = ⟨relStr (a :: rest), child, "folder"⟩ := by
                simpa using h2
              rw [this, hx]
              exact relStr_ne_snoc (a :: rest) x (by simp)
          rw [walkUp] at he
          split at he
          · exact ih (a :: rest).dropLast (relStr (a :: rest)) _
              ⟨(a :: rest).getLast (by simp), by rw [hrw]⟩ hne e he
          · exact ih (a :: rest).dropLast (relStr (a :: rest)) _
              ⟨(a :: rest).getLast (by simp), by rw [hrw]⟩ hne e he

theorem procFile_edges_ne (st : GState) (p : List String)
    (h : ∀ e ∈ st.edges, e.source ≠ e.target) :
    ∀ e ∈ (procFile st p).edges, e.source ≠ e.target := by
  unfold procFile
  cases p with
  | nil =>
      intro e he
      exact h e (by simpa [walkUp] using he)
  | cons a rest =>
      apply walkUp_edges_ne
      · exact ⟨(a :: rest).getLast (by simp),
          by rw [List.dropLast_append_getLast]⟩
      · exact h

theorem foldl_edges_ne {α : Type} (g : GState → α → GState)
    (hg : ∀ st a, (∀ e ∈ st.edges, e.source ≠ e.target) →
      ∀ e ∈ (g st a).edges, e.source ≠ e.target) :
    ∀ (l : List α) (st : GState),
      (∀ e ∈ st.edges, e.source ≠ e.target) →
      ∀ e ∈ (l.foldl g st).edges, e.source ≠ e.target := by
  intro l
  induction l with
  | nil => intro st h; exact h
  | cons a as ih => intro st h; exact ih (g st a) (hg st a h)

theorem serverPhase1_edges_ne (cfg : Config) (fs : List VFile) :
    ∀ e ∈ (serverPhase1 cfg fs).edges, e.source ≠ e.target := by
  unfold serverPhase1
  apply foldl_edges_ne
  · intro st f h
    split
    · exact procFile_edges_ne st f.path h
    · exact h
  · intro e he
    exact absurd he (by simp)

theorem staticPhase1_edges_ne (files : List (List String)) :
    ∀ e ∈ (staticPhase1 files).edges, e.source ≠ e.target := by
  unfold staticPhase1
  apply foldl_edges_ne
  · intro st p h
    exact procFile_edges_ne st p h
  · intro e he
    exact absurd he (by simp)

theorem linkEdges_ne (cfg : Config) (fs : List VFile) (nodes : List GNode)
    (nd : GNode) : ∀ e ∈ linkEdges cfg fs nodes nd, e.source ≠ e.target := by
  intro e he
  unfold linkEdges at he
  split at he
  · split at he
    · rename_i f hf
      obtain ⟨t, _, hmap⟩ := List.mem_filterMap.mp he
      split at hmap
      · rename_i tp htp
        split at hmap
        · rename_i hcond
          have he' : e = ⟨nd.id, tp, "link"⟩ := (Option.some.inj hmap).symm
          rw [he']
          exact fun hc => hcond.2.2 hc.symm
        · exact absurd hmap (by simp)
      · exact absurd hmap (by simp)
    · exact absurd he (by simp)
  · exact absurd he (by simp)

theorem serverRawEdges_ne (cfg : Config) (fs : List VFile) :
    ∀ e ∈ serverRawEdges cfg fs, e.source ≠ e.target := by
  intro e he
  unfold serverRawEdges rawEdgesFrom at he
  rcases List.mem_append.mp he with h1 | h2
  · exact serverPhase1_edges_ne cfg fs e h1
  · obtain ⟨nd, _, hnd⟩ := List.mem_flatMap.mp h2
    exact linkEdges_ne _ _ _ _ e hnd

theorem staticRawEdges_ne (cfg : Config) (fs : List VFile)
    (files : List (List String)) :
    ∀ e ∈ staticRawEdges cfg fs files, e.source ≠ e.target := by
  intro e he
  unfold staticRawEdges rawEdgesFrom at he
  rcases List.mem_append.mp he with h1 | h2
  · exact staticPhase1_edges_ne files e h1
  · obtain ⟨nd, _, hnd⟩ := List.mem_flatMap.mp h2
    exact linkEdges_ne _ _ _ _ e hnd

/-- C4: in both graph builders the emitted edge list keeps at most one
edge per `(source, target)` key (so a repeated wikilink yields one edge),
is a sublist of the raw edge stream (first-seen order preserved), covers
every raw key (nothing beyond duplicates is dropped), and contains no
self-edge — folder edges step strictly up the tree and link edges are
guarded by `target_path != rel_str`. -/
theorem C4_edge_uniqueness (cfg : Config) (fs : List VFile)
    (files : List (List String)) :
    (((api_graph cfg fs).2.map edgeKey).Nodup ∧
      (∀ e ∈ (api_graph cfg fs).2, e.source ≠ e.target) ∧
      (api_graph cfg fs).2.Sublist (serverRawEdges cfg fs) ∧
      ∀ e ∈ serverRawEdges cfg fs,
        edgeKey e ∈ (api_graph cfg fs).2.map edgeKey) ∧
    (((generate_graph cfg fs files).2.map edgeKey).Nodup ∧
      (∀ e ∈ (generate_graph cfg fs files).2, e.source ≠ e.target) ∧
      (generate_graph cfg fs files).2.Sublist (staticRawEdges cfg fs files) ∧
      ∀ e ∈ staticRawEdges cfg fs files,
        edgeKey e ∈ (generate_graph cfg fs files).2.map edgeKey) := by
  refine ⟨⟨?_, ?_, ?_, ?_⟩, ?_, ?_, ?_, ?_⟩
  · exact (dedupEdges_keys (serverRawEdges cfg fs) []).1
  · intro e he
    exact serverRawEdges_ne cfg fs e
      ((dedupEdges_sublist (serverRawEdges cfg fs) []).subset he)
  · exact dedupEdges_sublist (serverRawEdges cfg fs) []
  · intro e he
    rcases dedupEdges_complete (serverRawEdges cfg fs) [] e he with h | h
    · exact absurd h (by simp)
    · exact h
  · exact (dedupEdges_keys (staticRawEdges cfg fs files) []).1
  · intro e he
    exact staticRawEdges_ne cfg fs files e
      ((dedupEdges_sublist (staticRawEdges cfg fs files) []).subset he)
  · exact dedupEdges_sublist (staticRawEdges cfg fs files) []
  · intro e he
    rcases dedupEdges_complete (staticRawEdges cfg fs files) [] e he with h | h
    · exact absurd h (by simp)
    · exact h

/-! ### C3: static exporter's graph versus the live graph -/

theorem foldl_filter_procFile (q : List String → Bool) :
    ∀ (l : List VFile) (st : GState),
      ((l.filter (fun f => q f.path)).map (fun f => f.path)).foldl procFile st =
        l.foldl (fun st f => if q f.path then procFile st f.path else st) st := by
  intro l
  induction l with
  | nil => intro st; rfl
  | cons f l ih =>
      intro st
      cases hq : q f.path with
      | true => simp [List.filter_cons, hq, ih]
      | false => simp [List.filter_cons, hq, ih]

/-- Under the default configuration, `collect_files` reduces to the
live builder's own filter provided no live-included file's relative path
string begins with `_site`: the `build_static.py` name check is already
subsumed by the default excluded-file set. -/
theorem collect_files_default (fs : List VFile)
    (h : ∀ f ∈ fs, graphIncl defaultConfig f.path = true →
      strStarts "_site" (relStr f.path) = false) :
    collect_files defaultConfig fs =
      ((sortFiles fs).filter (fun f => graphIncl defaultConfig f.path)).map
        (fun f => f.path) := by
  unfold collect_files
  congr 1
  apply List.filter_congr
  intro f hf
  have hmem : f ∈ fs := ((List.perm_insertionSort pathLe fs).mem_iff).mp hf
  cases hgi : graphIncl defaultConfig f.path with
  | false => simp [hgi]
  | true =>
      have hs := h f hmem hgi
      have hb : lastSegD f.path ≠ "build_static.py" := by
        have hnotin : lastSegD f.path ∉ defaultConfig.excluded_files := by
          unfold graphIncl at hgi
          rw [Bool.and_eq_true] at hgi
          exact of_decide_eq_true hgi.2
        intro hc
        apply hnotin
        rw [hc]
        decide
      simp [hgi, hs, hb]

/-- C3 (amended): with the default exclusion configuration, the static
exporter's graph over `collect_files()` equals the live server's graph
whenever no file passing the live builder's exclusion checks has a
relative path string beginning with `_site`; `collect_files`'s extra
`startswith("_site")` string test otherwise drops files — such as a
top-level `_sitemap.md` — that the live `api_graph` keeps, and the two
graphs differ. -/
theorem C3_static_live_graph_parity (fs : List VFile)
    (h : ∀ f ∈ fs, graphIncl defaultConfig f.path = true →
      strStarts "_site" (relStr f.path) = false) :
    generate_graph defaultConfig fs (collect_files defaultConfig fs) =
      api_graph defaultConfig fs := by
  have hphase : staticPhase1 (collect_files defaultConfig fs) =
      serverPhase1 defaultConfig fs := by
    rw [collect_files_default fs h]
    unfold staticPhase1 serverPhase1
    exact foldl_filter_procFile (fun p => graphIncl defaultConfig p)
      (sortFiles fs) ⟨[], [], []⟩
  unfold generate_graph api_graph staticRawEdges serverRawEdges
  rw [hphase]

def fsC3 : List VFile := [⟨["_sitemap.md"], "1", ""⟩]

/-- C3 (counterexample to the claim as stated): a vault whose only file
is a top-level `_sitemap.md` — not under the `_site` directory, passing
every default exclusion check — is dropped by `collect_files`'s
`str(rel).startswith("_site")` test, so the static graph is empty while
the live graph has its node. -/
theorem C3_counterexample :
    generate_graph defaultConfig fsC3 (collect_files defaultConfig fsC3) ≠
      api_graph defaultConfig fsC3 := by
  decide

def fsC3w : List VFile :=
  [⟨["notes", "a.md"], "1", "see [[b]]"⟩, ⟨["notes", "b.md"], "2", ""⟩]

theorem C3_witness :
    generate_graph defaultConfig fsC3w (collect_files defaultConfig fsC3w) =
      api_graph defaultConfig fsC3w :=
  C3_static_live_graph_parity fsC3w (by decide)

end Tachylite
